import Mathlib

/-!
# Stereoisomer enumeration (`Code/GraphMol/EnumerateStereoisomers.cpp`)

A shallow embedding of the flipper classes, the feature detector
`_get_flippers`, the count estimator `get_stereoisomer_count` and the driver
`enumerate_stereoisomers`, followed by the properties proved about them.

Conventions of the embedding.

* A molecule is a value; the source's `ROMol*` that is mutated in place becomes
  explicit state passing.  An `Atom*` / `Bond*` is the position of the atom /
  bond in the owning molecule's atom / bond sequence.
* Behaviour the C++ standard leaves undefined (dereferencing a pointer member
  that was never initialised, shifting an `int` by its width or more,
  converting an out-of-range `double` to `unsigned int`) is the result `none`.
  A call that runs the loop leaves the function without a `return`; what it
  did up to there is recorded in `Outcome.looped`.
* `unsigned int` and `int` are 32 bits wide.
* Library routines that are called but not defined in the file (perception,
  canonical strings, embedding, hashing, seeding) are fields of `Collaborators`
  and every statement is quantified over them.
-/

namespace RDKit

/-! ## Data model -/

/-- Modelled from the spec: the enumeration `Atom::ChiralType` (declared outside the file);
the chirality tag is one of unspecified, clockwise, counter-clockwise. -/
inductive ChiralType where
  | CHI_UNSPECIFIED
  | CHI_TETRAHEDRAL_CW
  | CHI_TETRAHEDRAL_CCW
  deriving DecidableEq, Repr

/-- Modelled from the spec: the enumeration `Bond::BondStereo` (declared outside the file);
the stereo descriptor is one of none, cis, trans, any. -/
inductive BondStereo where
  | STEREONONE
  | STEREOANY
  | STEREOCIS
  | STEREOTRANS
  deriving DecidableEq, Repr

/-- Modelled from the spec: the enumeration `Bond::BondDir` (declared outside the file);
the direction marker of a bond.  The file names `NONE` and `EITHERDOUBLE`;
every other marker is `OTHER` with its numeric code. -/
inductive BondDir where
  | NONE
  | EITHERDOUBLE
  | OTHER (code : Nat)
  deriving DecidableEq, Repr

/-- Modelled from the spec: the enumeration `StereoGroupType` (declared outside the file);
a group is absolute or enumerable (or, and). -/
inductive StereoGroupType where
  | STEREO_ABSOLUTE
  | STEREO_OR
  | STEREO_AND
  deriving DecidableEq, Repr

/-- The part of `Atom` the file reads or writes: degree, atomic number,
chirality tag and the property dictionary (key, value). -/
structure Atom where
  degree : Int
  atomicNum : Int
  chiralTag : ChiralType
  props : List (String × String)
  deriving DecidableEq, Repr

/-- The part of `Bond` the file reads or writes. -/
structure Bond where
  stereo : BondStereo
  bondDir : BondDir
  deriving DecidableEq, Repr

/-- A stereo group: its type and its member atoms (`Atom*`, as positions). -/
structure StereoGroup where
  groupType : StereoGroupType
  atoms : List Nat
  deriving DecidableEq, Repr

/-- The molecular graph as far as the file touches it. -/
structure ROMol where
  atoms : List Atom
  bonds : List Bond
  stereoGroups : List StereoGroup
  deriving DecidableEq, Repr

/-- The options record.  `rand` is the seed; the source tests it with
`!options.rand`, so the value 0 reads as "not supplied". -/
structure StereoEnumerationOptions where
  try_embedding : Bool
  only_unassigned : Bool
  only_stereo_groups : Bool
  unique : Bool
  max_isomers : Nat
  rand : Nat
  deriving DecidableEq, Repr

/-! ## Accessors of the graph -/

/-- The call `atom->hasProp(key)`. -/
def Atom.hasProp (a : Atom) (key : String) : Bool :=
  a.props.any (fun kv => kv.1 == key)

/-- The call `atom->clearProp(key)`. -/
def Atom.clearProp (a : Atom) (key : String) : Atom :=
  { a with props := a.props.filter (fun kv => !(kv.1 == key)) }

/-- The call `atom->setChiralTag(tag)`. -/
def Atom.setChiralTag (a : Atom) (tag : ChiralType) : Atom :=
  { a with chiralTag := tag }

/-- The call `bond->setStereo(s)`. -/
def Bond.setStereo (b : Bond) (s : BondStereo) : Bond :=
  { b with stereo := s }

/-- The call `bond->setBondDir(d)`. -/
def Bond.setBondDir (b : Bond) (d : BondDir) : Bond :=
  { b with bondDir := d }

/-- Apply `f` to the element at position `i`; a position outside the list
changes nothing. -/
def updateAt {α : Type} (f : α → α) : List α → Nat → List α
  | [], _ => []
  | x :: xs, 0 => f x :: xs
  | x :: xs, i + 1 => x :: updateAt f xs i

/-- The write `p->setChiralTag(tag)` for the atom pointer `p` into `mol`. -/
def ROMol.setAtomChiralTag (mol : ROMol) (p : Nat) (tag : ChiralType) : ROMol :=
  { mol with atoms := updateAt (fun a => a.setChiralTag tag) mol.atoms p }

/-- The write `p->setStereo(s)` for the bond pointer `p` into `mol`. -/
def ROMol.setBondStereo (mol : ROMol) (p : Nat) (s : BondStereo) : ROMol :=
  { mol with bonds := updateAt (fun b => b.setStereo s) mol.bonds p }

/-- The read `p->getChiralTag()` for the atom pointer `p` into `mol`; a
pointer to no atom of `mol` reads as unspecified. -/
def ROMol.getAtomChiralTag (mol : ROMol) (p : Nat) : ChiralType :=
  match mol.atoms[p]? with
  | some a => a.chiralTag
  | none => ChiralType.CHI_UNSPECIFIED

/-! ## Flippers -/

/-- The class `_BondFlipper`: the member `bond`. -/
structure _BondFlipper where
  bond : Nat
  deriving DecidableEq, Repr

/-- The class `_AtomFlipper`: the member `atom`, `none` while it has never been
assigned. -/
structure _AtomFlipper where
  atom : Option Nat
  deriving DecidableEq, Repr

/-- The class `_StereoGroupFlipper`: the member `_original_parities`. -/
structure _StereoGroupFlipper where
  _original_parities : List (Nat × ChiralType)
  deriving DecidableEq, Repr

/-- The constructor `_BondFlipper(Bond *bond) : bond(bond)`. -/
def _BondFlipper.new (bond : Nat) : _BondFlipper :=
  { bond := bond }

/-- The constructor `_AtomFlipper(Atom* atom) { atom = atom; }`: inside the
body the name `atom` is the parameter, so the statement assigns the parameter
to itself and the member is never initialised. -/
def _AtomFlipper.new (atom : Nat) : _AtomFlipper :=
  let _param := atom
  { atom := none }

/-- The constructor `_StereoGroupFlipper(StereoGroup* group)`: the loop pushes,
for each member atom in order, the pair of the atom and its current tag. -/
def _StereoGroupFlipper.new (mol : ROMol) (group : StereoGroup) : _StereoGroupFlipper :=
  { _original_parities :=
      group.atoms.foldl (fun acc atom => acc ++ [(atom, mol.getAtomChiralTag atom)]) [] }

/-- The method `_BondFlipper::flip`. -/
def _BondFlipper.flip (f : _BondFlipper) (flag : Bool) (mol : ROMol) : ROMol :=
  if flag then mol.setBondStereo f.bond BondStereo.STEREOCIS
  else mol.setBondStereo f.bond BondStereo.STEREOTRANS

/-- The method `_AtomFlipper::flip`; with the member never initialised the
dereference `atom->` is undefined. -/
def _AtomFlipper.flip (f : _AtomFlipper) (flag : Bool) (mol : ROMol) : Option ROMol :=
  match f.atom with
  | none => none
  | some p =>
    if flag then some (mol.setAtomChiralTag p ChiralType.CHI_TETRAHEDRAL_CW)
    else some (mol.setAtomChiralTag p ChiralType.CHI_TETRAHEDRAL_CCW)

/-- The method `_StereoGroupFlipper::flip`. -/
def _StereoGroupFlipper.flip (f : _StereoGroupFlipper) (flag : Bool) (mol : ROMol) : ROMol :=
  if flag then
    f._original_parities.foldl (fun m atom_parity => m.setAtomChiralTag atom_parity.1 atom_parity.2) mol
  else
    f._original_parities.foldl
      (fun m atom_parity =>
        if atom_parity.2 = ChiralType.CHI_TETRAHEDRAL_CW then
          m.setAtomChiralTag atom_parity.1 ChiralType.CHI_TETRAHEDRAL_CCW
        else if atom_parity.2 = ChiralType.CHI_TETRAHEDRAL_CCW then
          m.setAtomChiralTag atom_parity.1 ChiralType.CHI_TETRAHEDRAL_CW
        else m)
      mol

/-- The base class `_Flipper` with its three subclasses. -/
inductive _Flipper where
  | ofAtom (f : _AtomFlipper)
  | ofBond (f : _BondFlipper)
  | ofGroup (f : _StereoGroupFlipper)
  deriving DecidableEq, Repr

/-- The virtual call `flipper->flip(flag)`. -/
def _Flipper.flip (f : _Flipper) (flag : Bool) (mol : ROMol) : Option ROMol :=
  match f with
  | _Flipper.ofAtom a => a.flip flag mol
  | _Flipper.ofBond b => some (b.flip flag mol)
  | _Flipper.ofGroup g => some (g.flip flag mol)

/-! ## Collaborators -/

/-- The library routines the file calls without defining them.  A seeded
generator is the stream of its raw draws. -/
structure Collaborators where
  findPotentialStereo : ROMol → ROMol
  setDoubleBondNeighborDirections : ROMol → ROMol
  clearComputedProps : ROMol → ROMol
  assignStereochemistry : ROMol → ROMol
  MolToSmiles : ROMol → String
  addHs : ROMol → ROMol
  EmbedMolecule : ROMol → Nat → ROMol
  hash : List (Int × Int) → Nat
  srand : Nat → Nat → Nat
  ambientRand : Nat → Nat

/-! ## Feature detector -/

/-- Lines 55-61: the loop over `mol->atoms()`, pushing onto `flippers`. -/
def atomLoop (options : StereoEnumerationOptions) (mol : ROMol)
    (flippers : List _Flipper) : List _Flipper :=
  mol.atoms.enum.foldl
    (fun acc ia =>
      if ia.2.hasProp "_ChiralityPossible" then
        if !options.only_unassigned || ia.2.chiralTag == ChiralType.CHI_UNSPECIFIED then
          acc ++ [_Flipper.ofAtom (_AtomFlipper.new ia.1)]
        else acc
      else acc)
    flippers

/-- Lines 63-70: the loop over `mol->bonds()`, pushing onto `flippers`. -/
def bondLoop (options : StereoEnumerationOptions) (mol : ROMol)
    (flippers : List _Flipper) : List _Flipper :=
  mol.bonds.enum.foldl
    (fun acc ib =>
      let bstereo := ib.2.stereo
      if bstereo != BondStereo.STEREONONE then
        if !options.only_unassigned || bstereo == BondStereo.STEREOANY then
          acc ++ [_Flipper.ofBond (_BondFlipper.new ib.1)]
        else acc
      else acc)
    flippers

/-- Lines 74-78: the loop over `mol->getStereoGroups()`, pushing onto `flippers`. -/
def groupLoop (mol : ROMol) (flippers : List _Flipper) : List _Flipper :=
  mol.stereoGroups.foldl
    (fun acc group =>
      if group.groupType != StereoGroupType.STEREO_ABSOLUTE then
        acc ++ [_Flipper.ofGroup (_StereoGroupFlipper.new mol group)]
      else acc)
    flippers

/-- The body of `_get_flippers` after the perception call of line 51, on the
graph as perception left it. -/
def detect (mol : ROMol) (options : StereoEnumerationOptions) : List _Flipper :=
  let flippers : List _Flipper := []
  let flippers :=
    if !options.only_stereo_groups then bondLoop options mol (atomLoop options mol flippers)
    else flippers
  if options.only_unassigned then groupLoop mol flippers else flippers

/-- The function `_get_flippers`: the graph after the perception call, and the
flipper list. -/
def _get_flippers (ext : Collaborators) (mol : ROMol) (options : StereoEnumerationOptions) :
    ROMol × List _Flipper :=
  let mol := ext.findPotentialStereo mol
  (mol, detect mol options)

/-- The conversion of a `double` holding the whole number `v` to `unsigned int`:
defined only when `v` fits. -/
def toUnsigned (v : Nat) : Option Nat :=
  if v < 2 ^ 32 then some v else none

/-- The function `get_stereoisomer_count`: `std::pow(2, flippers.size())`
returned as `unsigned int`. -/
def get_stereoisomer_count (ext : Collaborators) (mol : ROMol)
    (options : StereoEnumerationOptions) : Option Nat :=
  let flippers := (_get_flippers ext mol options).2
  toUnsigned (2 ^ flippers.length)

/-! ## Combination source -/

/-- Modelled from the spec: `_RangeBitsGenerator` (not defined in the file); exhaustive mode
produces the sequence 0, 1, ..., 2^n - 1. -/
def _RangeBitsGenerator (n_centers : Nat) : List Nat :=
  List.range (2 ^ n_centers)

/-- Sampling without replacement from `pool`: each draw picks the element at
position `rand step % pool.length` and takes it out of the pool; stops after
`k` draws or when the pool is exhausted. -/
def drawDistinct (rand : Nat → Nat) : Nat → Nat → List Nat → List Nat
  | 0, _, _ => []
  | _ + 1, _, [] => []
  | k + 1, step, p :: pool =>
    let x := (p :: pool).getD (rand step % (p :: pool).length) p
    x :: drawDistinct rand k (step + 1) ((p :: pool).erase x)

/-- Modelled from the spec: `_UniqueRandomBitsGenerator` (not defined in the file); sampled
mode produces `maxIsomers` pairwise-distinct integers drawn without replacement
from [0, 2^n), as an explicit sample-without-replacement algorithm over an
index domain of size 2^n, parameterised by population size, sample size and a
generator instance. -/
def _UniqueRandomBitsGenerator (n_centers max_isomers : Nat) (rand : Nat → Nat) : List Nat :=
  drawDistinct rand max_isomers 0 (List.range (2 ^ n_centers))

/-- The order `std::sort` uses on `std::pair<int, int>`. -/
def pairLE (a b : Int × Int) : Prop :=
  a.1 < b.1 ∨ (a.1 = b.1 ∧ a.2 ≤ b.2)

instance : DecidableRel pairLE := fun a b => by
  unfold pairLE
  exact inferInstance

/-- Lines 109-113: the (degree, atomic number) pairs of the atoms, sorted. -/
def ordered_atoms (mol : ROMol) : List (Int × Int) :=
  (mol.atoms.foldl (fun acc atom => acc ++ [(atom.degree, atom.atomicNum)]) []).insertionSort pairLE

/-- Lines 104-119: the generator `rand` as line 121 finds it.  The first
branch only declares a block-local `bitsource` and leaves `rand` as it was. -/
def chooseRand (ext : Collaborators) (mol : ROMol) (options : StereoEnumerationOptions)
    (n_centers : Nat) : Nat → Nat :=
  if options.max_isomers = 0 ∨ 2 ^ n_centers ≤ options.max_isomers then
    let _bitsource := _RangeBitsGenerator n_centers
    ext.ambientRand
  else
    if options.rand = 0 then
      let seed := ext.hash (ordered_atoms mol)
      ext.srand seed
    else
      ext.srand options.rand

/-- Lines 104-121: the value of `bitsource` that the loop of line 125 iterates
over.  Line 121 stands after the `if`/`else` and assigns on both paths. -/
def combinationSource (ext : Collaborators) (mol : ROMol) (options : StereoEnumerationOptions)
    (n_centers : Nat) : List Nat :=
  let rand := chooseRand ext mol options n_centers
  _UniqueRandomBitsGenerator n_centers options.max_isomers rand

/-! ## Isomer builder -/

/-- The argument `bitflag & (1 << i)` of line 127 converted to `bool`; the shift
of the `int` 1 is defined for `i < 32` only. -/
def flipFlag (bitflag i : Nat) : Option Bool :=
  if i < 32 then some ((bitflag &&& (1 <<< i)) != 0) else none

/-- Lines 126-128: the inner loop over `i = 0 .. n_centers - 1`. -/
def applyFlips (flippers : List _Flipper) (n_centers bitflag : Nat) (mol : ROMol) :
    Option ROMol :=
  (List.range n_centers).foldlM
    (fun m i => do
      let flag ← flipFlag bitflag i
      let flipper ← flippers[i]?
      flipper.flip flag m)
    mol

/-- Lines 130-138: the copy of the graph, with the stereo groups replaced by
an empty vector when the graph has any. -/
def copyForIsomer (mol : ROMol) : ROMol :=
  if mol.stereoGroups ≠ [] then
    let empty_group : List StereoGroup := []
    { mol with stereoGroups := empty_group }
  else mol

/-- One pass of the loop body: the index, the copy as lines 130-138 leave it,
the isomer after lines 139-156, and whether the pass ran to the end of the body
(`false` when `continue` of line 146 was taken). -/
structure Candidate where
  bitflag : Nat
  copied : ROMol
  isomer : ROMol
  completed : Bool
  deriving DecidableEq, Repr

/-- The state carried through the loop of line 125: the caller's graph, the
set `seen_isomers`, and the passes made so far. -/
structure LoopState where
  mol : ROMol
  seen_isomers : List String
  passes : List Candidate
  deriving DecidableEq, Repr

/-- Lines 126-156: one pass of the loop body for `bitflag`. -/
def loopBody (ext : Collaborators) (options : StereoEnumerationOptions)
    (flippers : List _Flipper) (n_centers : Nat) (st : LoopState) (bitflag : Nat) :
    Option LoopState := do
  let mol ← applyFlips flippers n_centers bitflag st.mol
  let copied := copyForIsomer mol
  let isomer := ext.setDoubleBondNeighborDirections copied
  let isomer := ext.clearComputedProps isomer
  let isomer := ext.assignStereochemistry isomer
  if options.unique then
    let cansmi := ext.MolToSmiles isomer
    if cansmi ∈ st.seen_isomers then
      some { mol := mol, seen_isomers := st.seen_isomers,
             passes := st.passes ++ [{ bitflag := bitflag, copied := copied, isomer := isomer,
                                       completed := false }] }
    else
      let seen := cansmi :: st.seen_isomers
      let isomer :=
        if options.try_embedding then ext.EmbedMolecule (ext.addHs isomer) (bitflag % 2 ^ 31)
        else isomer
      some { mol := mol, seen_isomers := seen,
             passes := st.passes ++ [{ bitflag := bitflag, copied := copied, isomer := isomer,
                                       completed := true }] }
  else
    let isomer :=
      if options.try_embedding then ext.EmbedMolecule (ext.addHs isomer) (bitflag % 2 ^ 31)
      else isomer
    some { mol := mol, seen_isomers := st.seen_isomers,
           passes := st.passes ++ [{ bitflag := bitflag, copied := copied, isomer := isomer,
                                     completed := true }] }

/-- Lines 89-96: clear `_CIPCode` on every atom and reset the direction
`EITHERDOUBLE` to `NONE` on every bond. -/
def clearStale (mol : ROMol) : ROMol :=
  { mol with
    atoms := mol.atoms.map (fun atom => atom.clearProp "_CIPCode")
    bonds := mol.bonds.map (fun bond =>
      if bond.bondDir = BondDir.EITHERDOUBLE then bond.setBondDir BondDir.NONE else bond) }

/-- What a call of `enumerate_stereoisomers` does.  `returned`: line 101 was
reached; the vector returned holds the pointer `mol` itself, so the element
is the caller's graph in its state `mol`.  `looped`: lines 104-159 ran over
`bitsource`; `final` is the loop state after the last pass (`none` when a pass
was undefined), and control then leaves the function without a `return`. -/
inductive Outcome where
  | returned (result : List ROMol) (mol : ROMol)
  | looped (bitsource : List Nat) (final : Option LoopState)
  deriving DecidableEq, Repr

/-- The function `enumerate_stereoisomers`. -/
def enumerate_stereoisomers (ext : Collaborators) (mol : ROMol)
    (options : StereoEnumerationOptions) : Outcome :=
  let mol := clearStale mol
  let (mol, flippers) := _get_flippers ext mol options
  let n_centers := flippers.length
  if n_centers = 0 then
    Outcome.returned [mol] mol
  else
    let bitsource := combinationSource ext mol options n_centers
    let seen_isomers : List String := []
    Outcome.looped bitsource
      (bitsource.foldlM (loopBody ext options flippers n_centers)
        { mol := mol, seen_isomers := seen_isomers, passes := [] })

/-- The combination indices a call iterates over. -/
def Outcome.indices : Outcome → List Nat
  | Outcome.returned _ _ => []
  | Outcome.looped bitsource _ => bitsource

/-! ## Vocabulary of the statements -/

/-- The positions of the elements of `l` that satisfy `p`, in order. -/
def positionsWhere {α : Type} (p : α → Bool) (l : List α) : List Nat :=
  (l.enum.filter (fun ia => p ia.2)).map Prod.fst

/-- An atom the detector is to give a flipper: marked chirality-possible, and
either `onlyUnassigned` is off or its tag is unspecified. -/
def atomEligible (options : StereoEnumerationOptions) (a : Atom) : Bool :=
  a.hasProp "_ChiralityPossible" &&
    (!options.only_unassigned || a.chiralTag == ChiralType.CHI_UNSPECIFIED)

/-- A bond the detector is to give a flipper: its descriptor is not none, and
either `onlyUnassigned` is off or the descriptor is any. -/
def bondEligible (options : StereoEnumerationOptions) (b : Bond) : Bool :=
  b.stereo != BondStereo.STEREONONE &&
    (!options.only_unassigned || b.stereo == BondStereo.STEREOANY)

/-- A stereo group the detector is to give a flipper: its type is not absolute. -/
def groupEligible (g : StereoGroup) : Bool :=
  g.groupType != StereoGroupType.STEREO_ABSOLUTE

/-- Whether a flipper is a stereo-group flipper. -/
def _Flipper.isGroup : _Flipper → Bool
  | _Flipper.ofGroup _ => true
  | _ => false

/-- Collaborators that leave every graph as it is and draw nothing but zeros. -/
def inertCollaborators : Collaborators where
  findPotentialStereo := fun m => m
  setDoubleBondNeighborDirections := fun m => m
  clearComputedProps := fun m => m
  assignStereochemistry := fun m => m
  MolToSmiles := fun _ => ""
  addHs := fun m => m
  EmbedMolecule := fun m _ => m
  hash := fun _ => 0
  srand := fun _ _ => 0
  ambientRand := fun _ => 0

/-- Options with every switch off, no cap and no seed. -/
def plainOptions : StereoEnumerationOptions :=
  { try_embedding := false, only_unassigned := false, only_stereo_groups := false,
    unique := false, max_isomers := 0, rand := 0 }

/-- A double bond whose stereo is marked "any". -/
def anyBond : Bond :=
  { stereo := BondStereo.STEREOANY, bondDir := BondDir.NONE }

/-- A graph of `n` bonds marked "any" and nothing else. -/
def bondsOnly (n : Nat) : ROMol :=
  { atoms := [], bonds := List.replicate n anyBond, stereoGroups := [] }

/-- An atom marked chirality-possible with the given tag. -/
def chiralAtom (tag : ChiralType) : Atom :=
  { degree := 4, atomicNum := 6, chiralTag := tag, props := [("_ChiralityPossible", "1")] }

/-- Two chirality-possible atoms, the second already assigned; no stereo
bonds, no stereo groups. -/
def twoCentres : ROMol :=
  { atoms := [chiralAtom ChiralType.CHI_UNSPECIFIED, chiralAtom ChiralType.CHI_TETRAHEDRAL_CW],
    bonds := [{ stereo := BondStereo.STEREONONE, bondDir := BondDir.NONE }],
    stereoGroups := [] }

/-- Two chirality-possible atoms, both unassigned; no stereo bonds, no stereo
groups. -/
def twoFreeCentres : ROMol :=
  { atoms := [chiralAtom ChiralType.CHI_UNSPECIFIED, chiralAtom ChiralType.CHI_UNSPECIFIED],
    bonds := [{ stereo := BondStereo.STEREONONE, bondDir := BondDir.NONE }],
    stereoGroups := [] }

/-- The stereo descriptors of the bonds of a graph, in order. -/
def ROMol.bondStereos (mol : ROMol) : List BondStereo :=
  mol.bonds.map Bond.stereo

/-- The caller's graph as a call leaves it, when the call's behaviour is
defined up to its last pass. -/
def Outcome.callerGraph : Outcome → Option ROMol
  | Outcome.returned _ mol => some mol
  | Outcome.looped _ final => final.map LoopState.mol

/-- The graph `m` differs from `base` at most in chirality tags and bond
stereo descriptors: same stereo groups, and atom for atom the same degree,
atomic number and properties, bond for bond the same direction marker. -/
def ROMol.sameExceptStereo (m base : ROMol) : Prop :=
  m.stereoGroups = base.stereoGroups
    ∧ m.atoms.map (fun a => (a.degree, a.atomicNum, a.props))
        = base.atoms.map (fun a => (a.degree, a.atomicNum, a.props))
    ∧ m.bonds.map Bond.bondDir = base.bonds.map Bond.bondDir

instance (m base : ROMol) : Decidable (m.sameExceptStereo base) := by
  unfold ROMol.sameExceptStereo
  exact inferInstance

/-- One atom carrying a `_CIPCode` property and one bond whose direction is
`EITHERDOUBLE`; nothing the detector picks up. -/
def staleGraph : ROMol :=
  { atoms := [{ degree := 4, atomicNum := 6, chiralTag := ChiralType.CHI_UNSPECIFIED,
                props := [("_CIPCode", "R")] }],
    bonds := [{ stereo := BondStereo.STEREONONE, bondDir := BondDir.EITHERDOUBLE }],
    stereoGroups := [] }

/-- One bond marked "any" with direction `EITHERDOUBLE`, and nothing else. -/
def eitherAnyGraph : ROMol :=
  { atoms := [],
    bonds := [{ stereo := BondStereo.STEREOANY, bondDir := BondDir.EITHERDOUBLE }],
    stereoGroups := [] }

/-- What `flip(false)` of a stereo-group flipper writes for a captured tag: the
opposite tag for clockwise and counter-clockwise, nothing otherwise. -/
def invertTag : ChiralType → Option ChiralType
  | ChiralType.CHI_TETRAHEDRAL_CW => some ChiralType.CHI_TETRAHEDRAL_CCW
  | ChiralType.CHI_TETRAHEDRAL_CCW => some ChiralType.CHI_TETRAHEDRAL_CW
  | ChiralType.CHI_UNSPECIFIED => none

/-- One step of a stereo-group flip: the entry `ap` writes `h ap.2` to the atom
`ap.1`, or nothing when `h ap.2` is `none`. -/
def writeStep (h : ChiralType → Option ChiralType) (m : ROMol) (ap : Nat × ChiralType) :
    ROMol :=
  match h ap.2 with
  | some t => m.setAtomChiralTag ap.1 t
  | none => m

/-- The tag of the atom `p` after the steps of the entries of `l`, in order,
when it was `t` before. -/
def tagAfter (h : ChiralType → Option ChiralType) (l : List (Nat × ChiralType)) (p : Nat)
    (t : ChiralType) : ChiralType :=
  l.foldl (fun t ap => if ap.1 = p then (h ap.2).getD t else t) t

/-- Three chirality-possible atoms tagged clockwise, counter-clockwise and
unspecified, all members of one stereo group of type "or". -/
def groupedCentres : ROMol :=
  { atoms := [chiralAtom ChiralType.CHI_TETRAHEDRAL_CW, chiralAtom ChiralType.CHI_TETRAHEDRAL_CCW,
              chiralAtom ChiralType.CHI_UNSPECIFIED],
    bonds := [],
    stereoGroups := [{ groupType := StereoGroupType.STEREO_OR, atoms := [0, 1, 2] }] }

/-- The stereo group of `groupedCentres`. -/
def groupedCentresGroup : StereoGroup :=
  { groupType := StereoGroupType.STEREO_OR, atoms := [0, 1, 2] }

/-- The (degree, atomic number) pair of an atom. -/
def Atom.degreeAndNumber (a : Atom) : Int × Int :=
  (a.degree, a.atomicNum)

/-- A carbon of degree 4 and an oxygen of degree 1, in this order. -/
def carbonThenOxygen : ROMol :=
  { atoms := [{ degree := 4, atomicNum := 6, chiralTag := ChiralType.CHI_UNSPECIFIED, props := [] },
              { degree := 1, atomicNum := 8, chiralTag := ChiralType.CHI_UNSPECIFIED, props := [] }],
    bonds := [], stereoGroups := [] }

/-- The same two atoms in the other order. -/
def oxygenThenCarbon : ROMol :=
  { atoms := [{ degree := 1, atomicNum := 8, chiralTag := ChiralType.CHI_UNSPECIFIED, props := [] },
              { degree := 4, atomicNum := 6, chiralTag := ChiralType.CHI_UNSPECIFIED, props := [] }],
    bonds := [], stereoGroups := [] }

/-- Collaborators whose generator draws nothing but its seed and whose hash is
the constant 7; the graph routines leave every graph as it is. -/
def seedEchoCollaborators : Collaborators where
  findPotentialStereo := fun m => m
  setDoubleBondNeighborDirections := fun m => m
  clearComputedProps := fun m => m
  assignStereochemistry := fun m => m
  MolToSmiles := fun _ => ""
  addHs := fun m => m
  EmbedMolecule := fun m _ => m
  hash := fun _ => 7
  srand := fun seed _ => seed
  ambientRand := fun _ => 0

/-- The loop state after the last pass of a call that ran the loop with every
pass defined. -/
def Outcome.finalState : Outcome → Option LoopState
  | Outcome.returned _ _ => none
  | Outcome.looped _ final => final

/-- The canonical string line 144 computes in the pass `c`: that of the copy
after lines 139-142. -/
def Candidate.signature (ext : Collaborators) (c : Candidate) : String :=
  ext.MolToSmiles (ext.assignStereochemistry (ext.clearComputedProps
    (ext.setDoubleBondNeighborDirections c.copied)))

/-- The signatures of the passes that ran to the end of the loop body, in order. -/
def keptSignatures (ext : Collaborators) (passes : List Candidate) : List String :=
  (passes.filter Candidate.completed).map (Candidate.signature ext)

/-- One plain atom, one bond marked "any", and a stereo group of type "or" on
the atom. -/
def bondAndGroup : ROMol :=
  { atoms := [{ degree := 4, atomicNum := 6, chiralTag := ChiralType.CHI_TETRAHEDRAL_CW,
                props := [] }],
    bonds := [anyBond],
    stereoGroups := [{ groupType := StereoGroupType.STEREO_OR, atoms := [0] }] }

/-- What the loop keeps true of its state when `unique` is on: the set
`seen_isomers` holds exactly the signatures of the passes that ran to the end,
once each, and a pass ran to the end exactly when its signature was not among
those of the earlier passes that did. -/
def dedupInvariant (ext : Collaborators) (st : LoopState) : Prop :=
  keptSignatures ext st.passes = st.seen_isomers.reverse
    ∧ st.seen_isomers.Nodup
    ∧ ∀ pre c post, st.passes = pre ++ c :: post →
        (c.completed = true ↔ Candidate.signature ext c ∉ keptSignatures ext pre)

/-- Two bonds with the given stereo descriptors and nothing else. -/
def twoBonds (s0 s1 : BondStereo) : ROMol :=
  { atoms := [],
    bonds := [{ stereo := s0, bondDir := BondDir.NONE }, { stereo := s1, bondDir := BondDir.NONE }],
    stereoGroups := [] }

/-- The loop state a call on two bonds marked "any" ends in with `unique` on,
`maxIsomers` = 2 and collaborators that give every graph the same signature:
indices 0 and 1, the first pass kept and the second cut short. -/
def dedupRunState : LoopState :=
  { mol := twoBonds BondStereo.STEREOCIS BondStereo.STEREOTRANS,
    seen_isomers := [""],
    passes :=
      [{ bitflag := 0, copied := twoBonds BondStereo.STEREOTRANS BondStereo.STEREOTRANS,
         isomer := twoBonds BondStereo.STEREOTRANS BondStereo.STEREOTRANS, completed := true },
       { bitflag := 1, copied := twoBonds BondStereo.STEREOCIS BondStereo.STEREOTRANS,
         isomer := twoBonds BondStereo.STEREOCIS BondStereo.STEREOTRANS, completed := false }] }

/-- The graph `bondAndGroup` with its bond set trans. -/
def bondAndGroupTrans : ROMol :=
  { bondAndGroup with bonds := [{ stereo := BondStereo.STEREOTRANS, bondDir := BondDir.NONE }] }

/-- The loop state a call on `bondAndGroup` ends in with `maxIsomers` = 1: one
pass for the index 0, whose copy has no stereo groups. -/
def groupRunState : LoopState :=
  { mol := bondAndGroupTrans,
    seen_isomers := [],
    passes :=
      [{ bitflag := 0, copied := { bondAndGroupTrans with stereoGroups := [] },
         isomer := { bondAndGroupTrans with stereoGroups := [] }, completed := true }] }

/-! ## Auxiliary facts about lists and loops -/

theorem foldl_push_filter {α β : Type} (p : α → Bool) (f : α → β) (l : List α)
    (init : List β) :
    l.foldl (fun acc x => if p x then acc ++ [f x] else acc) init
      = init ++ (l.filter p).map f := by
  induction l generalizing init with
  | nil => simp
  | cons x xs ih =>
    simp only [List.foldl_cons, ih]
    by_cases hx : p x = true
    · simp [hx, List.filter_cons]
    · simp [hx, List.filter_cons]

theorem positionsWhere_sorted {α : Type} (p : α → Bool) (l : List α) :
    (positionsWhere p l).Sorted (· < ·) := by
  unfold positionsWhere
  have h1 : (l.enum.map Prod.fst).Sorted (· < ·) := by
    rw [List.enum_map_fst]
    exact List.sorted_lt_range _
  have h2 : ((l.enum.filter (fun ia => p ia.2)).map Prod.fst).Sublist (l.enum.map Prod.fst) :=
    List.Sublist.map _ (List.filter_sublist _)
  exact List.Pairwise.sublist h2 h1

theorem mem_positionsWhere {α : Type} (p : α → Bool) (l : List α) (i : Nat) :
    i ∈ positionsWhere p l ↔ ∃ a, l[i]? = some a ∧ p a = true := by
  unfold positionsWhere
  simp only [List.mem_map, List.mem_filter, Prod.exists]
  constructor
  · rintro ⟨j, a, ⟨hmem, hp⟩, rfl⟩
    exact ⟨a, List.mk_mem_enum_iff_getElem?.mp hmem, hp⟩
  · rintro ⟨a, ha, hp⟩
    exact ⟨i, a, ⟨List.mk_mem_enum_iff_getElem?.mpr ha, hp⟩, rfl⟩

theorem atomLoop_eq (options : StereoEnumerationOptions) (mol : ROMol)
    (flippers : List _Flipper) :
    atomLoop options mol flippers
      = flippers ++ (positionsWhere (atomEligible options) mol.atoms).map
          (fun i => _Flipper.ofAtom (_AtomFlipper.new i)) := by
  unfold atomLoop positionsWhere
  rw [List.map_map, ← foldl_push_filter]
  congr 1
  funext acc ia
  by_cases h1 : ia.2.hasProp "_ChiralityPossible" = true <;>
    by_cases h2 : (!options.only_unassigned || ia.2.chiralTag == ChiralType.CHI_UNSPECIFIED) = true <;>
    simp [atomEligible, h1, h2]

theorem bondLoop_eq (options : StereoEnumerationOptions) (mol : ROMol)
    (flippers : List _Flipper) :
    bondLoop options mol flippers
      = flippers ++ (positionsWhere (bondEligible options) mol.bonds).map
          (fun i => _Flipper.ofBond (_BondFlipper.new i)) := by
  unfold bondLoop positionsWhere
  rw [List.map_map, ← foldl_push_filter]
  congr 1
  funext acc ib
  by_cases h1 : (ib.2.stereo != BondStereo.STEREONONE) = true <;>
    by_cases h2 : (!options.only_unassigned || ib.2.stereo == BondStereo.STEREOANY) = true <;>
    simp [bondEligible, h1, h2]

theorem groupLoop_eq (mol : ROMol) (flippers : List _Flipper) :
    groupLoop mol flippers
      = flippers ++ (mol.stereoGroups.filter groupEligible).map
          (fun g => _Flipper.ofGroup (_StereoGroupFlipper.new mol g)) := by
  unfold groupLoop
  rw [← foldl_push_filter]
  rfl

theorem updateAt_length {α : Type} (f : α → α) (l : List α) (i : Nat) :
    (updateAt f l i).length = l.length := by
  induction l generalizing i with
  | nil => rfl
  | cons x xs ih =>
    cases i with
    | zero => rfl
    | succ i => simp [updateAt, ih]

theorem updateAt_getElem?_self {α : Type} (f : α → α) (l : List α) (i : Nat) :
    (updateAt f l i)[i]? = (l[i]?).map f := by
  induction l generalizing i with
  | nil => simp [updateAt]
  | cons x xs ih =>
    cases i with
    | zero => simp [updateAt]
    | succ i => simp [updateAt, ih]

theorem updateAt_getElem?_ne {α : Type} (f : α → α) (l : List α) (i j : Nat) (h : i ≠ j) :
    (updateAt f l i)[j]? = l[j]? := by
  induction l generalizing i j with
  | nil => simp [updateAt]
  | cons x xs ih =>
    cases i with
    | zero =>
      cases j with
      | zero => exact absurd rfl h
      | succ j => simp [updateAt]
    | succ i =>
      cases j with
      | zero => simp [updateAt]
      | succ j =>
        simp only [updateAt, List.getElem?_cons_succ]
        exact ih i j (fun e => h (by rw [e]))

theorem detect_length_bondsOnly (n : Nat) :
    (detect (bondsOnly n) plainOptions).length = n := by
  have hp : positionsWhere (bondEligible plainOptions) (List.replicate n anyBond)
      = List.range n := by
    unfold positionsWhere
    rw [List.filter_eq_self.mpr, List.enum_map_fst, List.length_replicate]
    intro ia hia
    obtain ⟨i, b⟩ := ia
    have h2 := (List.mem_enum hia).2
    simp only [List.getElem_replicate] at h2
    simp only [h2]
    rfl
  have hq : positionsWhere (atomEligible plainOptions) ([] : List Atom) = [] := rfl
  have h1 : plainOptions.only_stereo_groups = false := rfl
  have h2 : plainOptions.only_unassigned = false := rfl
  simp only [detect, h1, h2, atomLoop_eq, bondLoop_eq, bondsOnly, hp, hq]
  simp

theorem all_isGroup_groupFlippers (m : ROMol) (gs : List StereoGroup) :
    (gs.map (fun g => _Flipper.ofGroup (_StereoGroupFlipper.new m g))).all _Flipper.isGroup
      = true := by
  induction gs with
  | nil => rfl
  | cons g gs _ => simp [_Flipper.isGroup]

theorem all_not_isGroup_atomFlippers (l : List Nat) :
    (l.map (fun i => _Flipper.ofAtom (_AtomFlipper.new i))).all (fun f => !f.isGroup)
      = true := by
  induction l with
  | nil => rfl
  | cons i l _ => simp [_Flipper.isGroup]

theorem all_not_isGroup_bondFlippers (l : List Nat) :
    (l.map (fun j => _Flipper.ofBond (_BondFlipper.new j))).all (fun f => !f.isGroup)
      = true := by
  induction l with
  | nil => rfl
  | cons j l _ => simp [_Flipper.isGroup]

/-! ## The count estimator -/

/-- C1 (as amended): whenever the detector builds fewer than 32 flippers,
`get_stereoisomer_count` returns exactly 2^n, n being the length of the flipper
list `_get_flippers` builds for the same graph and options. -/
theorem get_stereoisomer_count_eq_pow (ext : Collaborators) (mol : ROMol)
    (options : StereoEnumerationOptions)
    (hn : (_get_flippers ext mol options).2.length < 32) :
    get_stereoisomer_count ext mol options
      = some (2 ^ (_get_flippers ext mol options).2.length) := by
  unfold get_stereoisomer_count toUnsigned
  have hlt : 2 ^ (_get_flippers ext mol options).2.length < 2 ^ 32 :=
    Nat.pow_lt_pow_right (by decide) hn
  simp only [hlt, if_true]

/-- C1, an instance: three bonds marked "any" give three flippers and the count 8. -/
theorem get_stereoisomer_count_eq_pow_witness :
    (_get_flippers inertCollaborators (bondsOnly 3) plainOptions).2.length < 32 ∧
      get_stereoisomer_count inertCollaborators (bondsOnly 3) plainOptions
        = some (2 ^ (_get_flippers inertCollaborators (bondsOnly 3) plainOptions).2.length) :=
  ⟨by decide, get_stereoisomer_count_eq_pow inertCollaborators (bondsOnly 3) plainOptions
    (by decide)⟩

/-- C1 as stated fails: a graph with 32 bonds marked "any" has 32 flippers, and
the count returned is not 2^32 (no `unsigned int` holds that value). -/
theorem get_stereoisomer_count_32_flippers :
    (_get_flippers inertCollaborators (bondsOnly 32) plainOptions).2.length = 32 ∧
      get_stereoisomer_count inertCollaborators (bondsOnly 32) plainOptions
        ≠ some (2 ^ (_get_flippers inertCollaborators (bondsOnly 32) plainOptions).2.length) := by
  have hlen : (_get_flippers inertCollaborators (bondsOnly 32) plainOptions).2.length = 32 :=
    detect_length_bondsOnly 32
  refine ⟨hlen, ?_⟩
  unfold get_stereoisomer_count toUnsigned
  rw [hlen]
  decide

/-! ## The feature detector -/

/-- C7: with `onlyStereoGroups` off, the flipper list starts with one atom
flipper per atom (in graph order) that is marked chirality-possible and is
unassigned or admitted by `onlyUnassigned` being off, followed by one bond
flipper per bond (in graph order) whose descriptor is not none and is any or
admitted by `onlyUnassigned` being off; after them come stereo-group flippers
only.  With `onlyStereoGroups` on there is no atom and no bond flipper.  The
scenario: two chirality-possible atoms, one already assigned, no stereo bonds
or groups, `onlyUnassigned` on, gives exactly one flipper. -/
theorem get_flippers_atoms_then_bonds (ext : Collaborators) (mol : ROMol)
    (options : StereoEnumerationOptions) :
    (∃ (as bs : List Nat) (gs : List _Flipper),
      (_get_flippers ext mol options).2
          = as.map (fun i => _Flipper.ofAtom (_AtomFlipper.new i))
            ++ bs.map (fun j => _Flipper.ofBond (_BondFlipper.new j)) ++ gs
        ∧ gs.all _Flipper.isGroup = true
        ∧ as.Sorted (· < ·) ∧ bs.Sorted (· < ·)
        ∧ (if options.only_stereo_groups = true then as = [] ∧ bs = []
            else
              (∀ i, i ∈ as ↔ ∃ a, (ext.findPotentialStereo mol).atoms[i]? = some a
                  ∧ a.hasProp "_ChiralityPossible" = true
                  ∧ (options.only_unassigned = false
                      ∨ a.chiralTag = ChiralType.CHI_UNSPECIFIED))
              ∧ (∀ j, j ∈ bs ↔ ∃ b, (ext.findPotentialStereo mol).bonds[j]? = some b
                  ∧ b.stereo ≠ BondStereo.STEREONONE
                  ∧ (options.only_unassigned = false
                      ∨ b.stereo = BondStereo.STEREOANY))))
    ∧ (_get_flippers inertCollaborators twoCentres
          { plainOptions with only_unassigned := true }).2.length = 1 := by
  refine ⟨?_, by decide⟩
  by_cases hsg : options.only_stereo_groups = true
  · refine ⟨[], [], (_get_flippers ext mol options).2, by simp, ?_, List.sorted_nil,
      List.sorted_nil, by simp [hsg]⟩
    by_cases hu : options.only_unassigned = true
    · simp only [_get_flippers, detect, hsg, hu, groupLoop_eq, Bool.not_true, if_true,
        Bool.false_eq_true, if_false, List.nil_append]
      exact all_isGroup_groupFlippers _ _
    · simp [_get_flippers, detect, hsg, hu]
  · have hsg' : options.only_stereo_groups = false := by simpa using hsg
    refine ⟨positionsWhere (atomEligible options) (ext.findPotentialStereo mol).atoms,
      positionsWhere (bondEligible options) (ext.findPotentialStereo mol).bonds,
      if options.only_unassigned = true then
        ((ext.findPotentialStereo mol).stereoGroups.filter groupEligible).map
          (fun g => _Flipper.ofGroup
            (_StereoGroupFlipper.new (ext.findPotentialStereo mol) g))
      else [], ?_, ?_, positionsWhere_sorted _ _, positionsWhere_sorted _ _, ?_⟩
    · by_cases hu : options.only_unassigned = true
      · simp [_get_flippers, detect, hsg', hu, groupLoop_eq, atomLoop_eq, bondLoop_eq]
      · simp [_get_flippers, detect, hsg', hu, atomLoop_eq, bondLoop_eq]
    · by_cases hu : options.only_unassigned = true
      · rw [if_pos hu]
        exact all_isGroup_groupFlippers _ _
      · rw [if_neg hu]
        rfl
    · rw [if_neg hsg]
      constructor
      · intro i
        rw [mem_positionsWhere]
        simp [atomEligible]
      · intro j
        rw [mem_positionsWhere]
        simp [bondEligible]

/-- C8: after the atom and bond flippers (a prefix free of group flippers, empty
when `onlyStereoGroups` is on) the list holds, when `onlyUnassigned` is on,
exactly one group flipper per stereo group whose type is not absolute, in
order, and no group flipper when `onlyUnassigned` is off, whatever
`onlyStereoGroups` is; so `onlyStereoGroups` on with `onlyUnassigned` off gives
the empty list. -/
theorem get_flippers_groups_last (ext : Collaborators) (mol : ROMol)
    (options : StereoEnumerationOptions) :
    ∃ pre : List _Flipper,
      (_get_flippers ext mol options).2
          = pre ++ (if options.only_unassigned = true then
              ((ext.findPotentialStereo mol).stereoGroups.filter
                  (fun g => g.groupType != StereoGroupType.STEREO_ABSOLUTE)).map
                (fun g => _Flipper.ofGroup
                  (_StereoGroupFlipper.new (ext.findPotentialStereo mol) g))
            else [])
        ∧ pre.all (fun f => !f.isGroup) = true
        ∧ (options.only_stereo_groups = false ∨ pre = [])
        ∧ (options.only_stereo_groups = false ∨ options.only_unassigned = true
            ∨ (_get_flippers ext mol options).2 = []) := by
  by_cases hsg : options.only_stereo_groups = true
  · refine ⟨[], ?_, rfl, Or.inr rfl, ?_⟩
    · by_cases hu : options.only_unassigned = true
      · simp only [_get_flippers, detect, hsg, hu, groupLoop_eq, Bool.not_true, if_true,
          Bool.false_eq_true, if_false, List.nil_append]
        rfl
      · simp [_get_flippers, detect, hsg, hu]
    · by_cases hu : options.only_unassigned = true
      · exact Or.inr (Or.inl hu)
      · exact Or.inr (Or.inr (by simp [_get_flippers, detect, hsg, hu]))
  · have hsg' : options.only_stereo_groups = false := by simpa using hsg
    refine ⟨(positionsWhere (atomEligible options) (ext.findPotentialStereo mol).atoms).map
        (fun i => _Flipper.ofAtom (_AtomFlipper.new i))
      ++ (positionsWhere (bondEligible options) (ext.findPotentialStereo mol).bonds).map
        (fun j => _Flipper.ofBond (_BondFlipper.new j)), ?_, ?_, Or.inl hsg', Or.inl hsg'⟩
    · by_cases hu : options.only_unassigned = true
      · simp only [_get_flippers, detect, hsg', hu, groupLoop_eq, atomLoop_eq, bondLoop_eq,
          Bool.not_false, if_true, List.nil_append]
        rfl
      · simp [_get_flippers, detect, hsg', hu, atomLoop_eq, bondLoop_eq]
    · rw [List.all_append, all_not_isGroup_atomFlippers, all_not_isGroup_bondFlippers]
      rfl

/-! ## The flippers -/

/-- C9, on the code: whatever atom an atom flipper is constructed for, its
member stays unassigned and `flip` is undefined, so the tag of that atom is
set neither to clockwise nor to counter-clockwise. -/
theorem atom_flipper_controls_nothing (a : Nat) (flag : Bool) (mol : ROMol) :
    (_AtomFlipper.new a).atom = none ∧ (_AtomFlipper.new a).flip flag mol = none :=
  ⟨rfl, rfl⟩

/-- C10: for a bond `b` of the graph, whatever its descriptor was, `flip(true)`
of the bond flipper constructed for `b` leaves the descriptor of `b` cis and
`flip(false)` leaves it trans. -/
theorem bond_flipper_sets_cis_or_trans (mol : ROMol) (b : Nat) (flag : Bool)
    (hb : b < mol.bonds.length) :
    (((_BondFlipper.new b).flip flag mol).bonds[b]?).map Bond.stereo
      = some (if flag = true then BondStereo.STEREOCIS else BondStereo.STEREOTRANS) := by
  have hget : mol.bonds[b]? = some mol.bonds[b] := List.getElem?_eq_getElem hb
  cases flag <;>
    simp [_BondFlipper.flip, _BondFlipper.new, ROMol.setBondStereo, updateAt_getElem?_self,
      hget, Bond.setStereo]

/-- C10, an instance: the bond of a one-bond graph marked "any". -/
theorem bond_flipper_sets_cis_or_trans_witness :
    0 < (bondsOnly 1).bonds.length ∧
      (((_BondFlipper.new 0).flip true (bondsOnly 1)).bonds[0]?).map Bond.stereo
        = some (if true = true then BondStereo.STEREOCIS else BondStereo.STEREOTRANS) :=
  ⟨by decide, bond_flipper_sets_cis_or_trans (bondsOnly 1) 0 true (by decide)⟩

/-! ## The combination source -/

theorem drawDistinct_length_le (rand : Nat → Nat) (k step : Nat) (pool : List Nat) :
    (drawDistinct rand k step pool).length ≤ k := by
  induction k generalizing step pool with
  | zero => simp [drawDistinct]
  | succ k ih =>
    cases pool with
    | nil => simp [drawDistinct]
    | cons p pool =>
      simp only [drawDistinct, List.length_cons]
      exact Nat.succ_le_succ (ih _ _)

theorem drawDistinct_subset (rand : Nat → Nat) (k step : Nat) (pool : List Nat) :
    ∀ x ∈ drawDistinct rand k step pool, x ∈ pool := by
  induction k generalizing step pool with
  | zero => simp [drawDistinct]
  | succ k ih =>
    cases pool with
    | nil => simp [drawDistinct]
    | cons p pool =>
      intro x hx
      simp only [drawDistinct, List.mem_cons] at hx
      rcases hx with hx | hx
      · have hj : rand step % (p :: pool).length < (p :: pool).length :=
          Nat.mod_lt _ (by simp)
        rw [hx, List.getD_eq_getElem _ _ hj]
        exact List.getElem_mem _
      · exact List.mem_of_mem_erase (ih _ _ x hx)

theorem drawDistinct_nodup (rand : Nat → Nat) (k step : Nat) (pool : List Nat)
    (hpool : pool.Nodup) : (drawDistinct rand k step pool).Nodup := by
  induction k generalizing step pool with
  | zero => simp [drawDistinct]
  | succ k ih =>
    cases pool with
    | nil => simp [drawDistinct]
    | cons p pool =>
      simp only [drawDistinct, List.nodup_cons]
      refine ⟨?_, ih _ _ (hpool.erase _)⟩
      intro hmem
      exact (List.Nodup.not_mem_erase hpool) (drawDistinct_subset _ _ _ _ _ hmem)

theorem indices_of_flippers (ext : Collaborators) (mol : ROMol)
    (options : StereoEnumerationOptions)
    (hn : (_get_flippers ext (clearStale mol) options).2.length ≠ 0) :
    (enumerate_stereoisomers ext mol options).indices
      = _UniqueRandomBitsGenerator (_get_flippers ext (clearStale mol) options).2.length
          options.max_isomers
          (chooseRand ext (ext.findPotentialStereo (clearStale mol)) options
            (_get_flippers ext (clearStale mol) options).2.length) := by
  unfold enumerate_stereoisomers
  simp only [hn, if_false]
  rfl

/-- C2, on the code: one bond marked "any" gives one flipper and `maxIsomers`
is 0, so the mode is exhaustive and the claim asks for the indices 0, 1; the
loop iterates over no index at all, because the value assigned to `bitsource`
after the branch is the sampler's output for a sample size of 0. -/
theorem exhaustive_mode_iterates_sampler_output :
    (_get_flippers inertCollaborators (clearStale (bondsOnly 1)) plainOptions).2.length = 1
      ∧ plainOptions.max_isomers = 0
      ∧ _RangeBitsGenerator 1 = [0, 1]
      ∧ (enumerate_stereoisomers inertCollaborators (bondsOnly 1) plainOptions).indices = []
      ∧ enumerate_stereoisomers inertCollaborators (bondsOnly 1) plainOptions
          = Outcome.looped []
              (some { mol := bondsOnly 1, seen_isomers := [], passes := [] }) := by
  decide

/-- C3: in sampled mode (0 < maxIsomers = k < 2^n, n the number of flippers the
call detects) the indices the call iterates over are at most k, each lies in
[0, 2^n), and no index occurs twice; the `unique` option plays no part. -/
theorem sampled_indices_distinct (ext : Collaborators) (mol : ROMol)
    (options : StereoEnumerationOptions)
    (hk : 0 < options.max_isomers)
    (hlt : options.max_isomers < 2 ^ (_get_flippers ext (clearStale mol) options).2.length) :
    (enumerate_stereoisomers ext mol options).indices.length ≤ options.max_isomers
      ∧ (∀ x ∈ (enumerate_stereoisomers ext mol options).indices,
          x < 2 ^ (_get_flippers ext (clearStale mol) options).2.length)
      ∧ (enumerate_stereoisomers ext mol options).indices.Nodup := by
  have hn : (_get_flippers ext (clearStale mol) options).2.length ≠ 0 := by
    intro h0
    rw [h0] at hlt
    omega
  rw [indices_of_flippers ext mol options hn]
  unfold _UniqueRandomBitsGenerator
  refine ⟨drawDistinct_length_le _ _ _ _, ?_, drawDistinct_nodup _ _ _ _ (List.nodup_range _)⟩
  intro x hx
  exact List.mem_range.mp (drawDistinct_subset _ _ _ _ x hx)

/-- C3, an instance: two bonds marked "any" (n = 2) and `maxIsomers` = 3. -/
theorem sampled_indices_distinct_witness :
    (0 < ({ plainOptions with max_isomers := 3 } : StereoEnumerationOptions).max_isomers
      ∧ ({ plainOptions with max_isomers := 3 } : StereoEnumerationOptions).max_isomers
          < 2 ^ (_get_flippers inertCollaborators (clearStale (bondsOnly 2))
              { plainOptions with max_isomers := 3 }).2.length)
    ∧ (enumerate_stereoisomers inertCollaborators (bondsOnly 2)
        { plainOptions with max_isomers := 3 }).indices.length ≤ 3
      ∧ (∀ x ∈ (enumerate_stereoisomers inertCollaborators (bondsOnly 2)
            { plainOptions with max_isomers := 3 }).indices,
          x < 2 ^ (_get_flippers inertCollaborators (clearStale (bondsOnly 2))
            { plainOptions with max_isomers := 3 }).2.length)
      ∧ (enumerate_stereoisomers inertCollaborators (bondsOnly 2)
          { plainOptions with max_isomers := 3 }).indices.Nodup :=
  ⟨by decide, sampled_indices_distinct inertCollaborators (bondsOnly 2)
    { plainOptions with max_isomers := 3 } (by decide) (by decide)⟩

/-! ## The isomer builder -/

theorem and_one_shiftLeft_ne_zero (x i : Nat) :
    ((x &&& (1 <<< i)) != 0) = x.testBit i := by
  rw [Nat.one_shiftLeft]
  cases hb : x.testBit i with
  | true =>
    have h1 : (x &&& 2 ^ i).testBit i = true := by
      rw [Nat.testBit_and, hb, Nat.testBit_two_pow_self]
      rfl
    have h2 : x &&& 2 ^ i ≠ 0 := by
      intro h0
      rw [h0, Nat.zero_testBit] at h1
      exact Bool.false_ne_true h1
    simpa using h2
  | false =>
    have h0 : x &&& 2 ^ i = 0 := by
      apply Nat.eq_of_testBit_eq
      intro j
      rw [Nat.testBit_and, Nat.testBit_two_pow, Nat.zero_testBit]
      by_cases hij : i = j
      · subst hij
        simp [hb]
      · simp [hij]
    simp [h0]

theorem flipFlag_eq_testBit (x i : Nat) (hi : i < 32) :
    flipFlag x i = some (x.testBit i) := by
  unfold flipFlag
  rw [if_pos hi, and_one_shiftLeft_ne_zero]

theorem foldlM_option_congr {σ ι : Type} (f g : σ → ι → Option σ) (l : List ι)
    (h : ∀ i ∈ l, ∀ s, f s i = g s i) (init : σ) :
    l.foldlM f init = l.foldlM g init := by
  induction l generalizing init with
  | nil => rfl
  | cons i l ih =>
    simp only [List.foldlM_cons]
    rw [h i (List.mem_cons_self _ _) init]
    cases g init i with
    | none => rfl
    | some s => exact ih (fun j hj => h j (List.mem_cons_of_mem _ hj)) s

/-- C4 (as amended): for a flipper list of at most 32 entries and every
combination index x, the inner loop passes flipper i the flag "bit i of x is
1" (least significant bit first) for every i below the number of flippers, in
the order i = 0, 1, ...  With two bond flippers and the indices 0, 1, 2, 3 the
descriptors set on (first bond, second bond) are (trans, trans), (cis, trans),
(trans, cis), (cis, cis). -/
theorem flips_follow_bits (flippers : List _Flipper) (x : Nat) (mol : ROMol)
    (hn : flippers.length ≤ 32) :
    (∀ i, i < flippers.length → flipFlag x i = some (x.testBit i))
      ∧ applyFlips flippers flippers.length x mol
          = (List.range flippers.length).foldlM
              (fun m i => (flippers[i]?).bind (fun flipper => flipper.flip (x.testBit i) m)) mol
      ∧ (List.range 4).map
            (fun y => (applyFlips (detect (bondsOnly 2) plainOptions) 2 y (bondsOnly 2)).map
              ROMol.bondStereos)
          = [some [BondStereo.STEREOTRANS, BondStereo.STEREOTRANS],
             some [BondStereo.STEREOCIS, BondStereo.STEREOTRANS],
             some [BondStereo.STEREOTRANS, BondStereo.STEREOCIS],
             some [BondStereo.STEREOCIS, BondStereo.STEREOCIS]] := by
  refine ⟨fun i hi => flipFlag_eq_testBit x i (by omega), ?_, by decide⟩
  unfold applyFlips
  apply foldlM_option_congr
  intro i hi m
  have hi32 : i < 32 := by
    have := List.mem_range.mp hi
    omega
  rw [flipFlag_eq_testBit x i hi32]
  rfl

/-- C4, an instance: the two bond flippers of a two-bond graph at index 2. -/
theorem flips_follow_bits_witness :
    (detect (bondsOnly 2) plainOptions).length ≤ 32
      ∧ applyFlips (detect (bondsOnly 2) plainOptions)
            (detect (bondsOnly 2) plainOptions).length 2 (bondsOnly 2)
          = (List.range (detect (bondsOnly 2) plainOptions).length).foldlM
              (fun m i => ((detect (bondsOnly 2) plainOptions)[i]?).bind
                (fun flipper => flipper.flip (Nat.testBit 2 i) m)) (bondsOnly 2) :=
  ⟨by decide, (flips_follow_bits (detect (bondsOnly 2) plainOptions) 2 (bondsOnly 2)
    (by decide)).2.1⟩

/-- C4 as stated fails twice.  With 33 flippers, the index 0 and i = 32 the
flag is not "bit 32 of 0": the shift `1 << 32` of an `int` is undefined.  And
with the two atom flippers the detector builds for two chirality-possible
atoms, applying index 1 sets no tag: the first `flip` is undefined. -/
theorem flag_undefined_at_bit_32 :
    (detect (bondsOnly 33) plainOptions).length = 33
      ∧ flipFlag 0 32 ≠ some (Nat.testBit 0 32)
      ∧ applyFlips (detect (bondsOnly 33) plainOptions) 33 0 (bondsOnly 33) = none
      ∧ detect twoFreeCentres plainOptions
          = [_Flipper.ofAtom (_AtomFlipper.new 0), _Flipper.ofAtom (_AtomFlipper.new 1)]
      ∧ applyFlips (detect twoFreeCentres plainOptions) 2 1 twoFreeCentres = none := by
  refine ⟨detect_length_bondsOnly 33, by decide, ?_, by decide, by decide⟩
  decide

/-! ## The driver -/

theorem clearStale_chiralTags (mol : ROMol) :
    (clearStale mol).atoms.map Atom.chiralTag = mol.atoms.map Atom.chiralTag := by
  simp [clearStale, List.map_map, Function.comp_def, Atom.clearProp]

theorem clearStale_bondStereos (mol : ROMol) :
    (clearStale mol).bonds.map Bond.stereo = mol.bonds.map Bond.stereo := by
  simp only [clearStale, List.map_map]
  apply List.map_congr_left
  intro b _
  simp only [Function.comp_apply]
  split <;> rfl

theorem clearStale_props (mol : ROMol) :
    (clearStale mol).atoms.map Atom.props
      = mol.atoms.map (fun a => a.props.filter (fun kv => !(kv.1 == "_CIPCode"))) := by
  simp [clearStale, List.map_map, Function.comp_def, Atom.clearProp]

theorem clearStale_bondDirs (mol : ROMol) :
    (clearStale mol).bonds.map Bond.bondDir
      = mol.bonds.map (fun b =>
          if b.bondDir = BondDir.EITHERDOUBLE then BondDir.NONE else b.bondDir) := by
  simp only [clearStale, List.map_map]
  apply List.map_congr_left
  intro b _
  simp only [Function.comp_apply]
  split <;> rfl

/-- C5 (as amended): when the detector builds zero flippers, the call returns a
sequence of exactly one element, and that element is the caller's graph itself
as the clearing step and the perception call left it: before perception it has
the chirality tags, bond stereo descriptors and stereo groups it was passed
with, its atom properties without the `_CIPCode` entries, and its bond
directions with `EITHERDOUBLE` replaced by `NONE`. -/
theorem zero_flippers_returns_cleared_graph (ext : Collaborators) (mol : ROMol)
    (options : StereoEnumerationOptions)
    (h0 : (_get_flippers ext (clearStale mol) options).2 = []) :
    enumerate_stereoisomers ext mol options
        = Outcome.returned [ext.findPotentialStereo (clearStale mol)]
            (ext.findPotentialStereo (clearStale mol))
      ∧ (clearStale mol).atoms.map Atom.chiralTag = mol.atoms.map Atom.chiralTag
      ∧ (clearStale mol).bonds.map Bond.stereo = mol.bonds.map Bond.stereo
      ∧ (clearStale mol).stereoGroups = mol.stereoGroups
      ∧ (clearStale mol).atoms.map Atom.props
          = mol.atoms.map (fun a => a.props.filter (fun kv => !(kv.1 == "_CIPCode")))
      ∧ (clearStale mol).bonds.map Bond.bondDir
          = mol.bonds.map (fun b =>
              if b.bondDir = BondDir.EITHERDOUBLE then BondDir.NONE else b.bondDir) := by
  refine ⟨?_, clearStale_chiralTags mol, clearStale_bondStereos mol, rfl,
    clearStale_props mol, clearStale_bondDirs mol⟩
  unfold enumerate_stereoisomers
  simp only [h0, List.length_nil, if_true]
  rfl

/-- C5, an instance: the graph with a stale `_CIPCode` and a stale direction. -/
theorem zero_flippers_returns_cleared_graph_witness :
    (_get_flippers inertCollaborators (clearStale staleGraph) plainOptions).2 = []
      ∧ enumerate_stereoisomers inertCollaborators staleGraph plainOptions
          = Outcome.returned [inertCollaborators.findPotentialStereo (clearStale staleGraph)]
              (inertCollaborators.findPotentialStereo (clearStale staleGraph)) :=
  ⟨by decide, (zero_flippers_returns_cleared_graph inertCollaborators staleGraph plainOptions
    (by decide)).1⟩

/-- C5 as stated fails: for a graph with no flippable feature, one atom carrying
`_CIPCode` and one bond with direction `EITHERDOUBLE`, the single element
returned has lost the property and the direction, so it is not structurally
equal to the graph as passed in. -/
theorem zero_flippers_result_differs_from_input :
    (_get_flippers inertCollaborators (clearStale staleGraph) plainOptions).2 = []
      ∧ enumerate_stereoisomers inertCollaborators staleGraph plainOptions
          = Outcome.returned [clearStale staleGraph] (clearStale staleGraph)
      ∧ (clearStale staleGraph).atoms.map Atom.props ≠ staleGraph.atoms.map Atom.props
      ∧ (clearStale staleGraph).bonds.map Bond.bondDir ≠ staleGraph.bonds.map Bond.bondDir
      ∧ clearStale staleGraph ≠ staleGraph := by
  decide

theorem updateAt_map_of_invariant {α β : Type} (f : α → α) (g : α → β)
    (h : ∀ a, g (f a) = g a) (l : List α) (i : Nat) :
    (updateAt f l i).map g = l.map g := by
  induction l generalizing i with
  | nil => rfl
  | cons x xs ih =>
    cases i with
    | zero => simp [updateAt, h]
    | succ i => simp [updateAt, ih]

theorem sameExceptStereo_refl (m : ROMol) : m.sameExceptStereo m :=
  ⟨rfl, rfl, rfl⟩

theorem sameExceptStereo_trans {a b c : ROMol} (hab : a.sameExceptStereo b)
    (hbc : b.sameExceptStereo c) : a.sameExceptStereo c :=
  ⟨hab.1.trans hbc.1, hab.2.1.trans hbc.2.1, hab.2.2.trans hbc.2.2⟩

theorem setAtomChiralTag_sameExceptStereo (m : ROMol) (p : Nat) (tag : ChiralType) :
    (m.setAtomChiralTag p tag).sameExceptStereo m := by
  refine ⟨rfl, ?_, rfl⟩
  exact updateAt_map_of_invariant (fun a => a.setChiralTag tag)
    (fun a => (a.degree, a.atomicNum, a.props)) (fun _ => rfl) m.atoms p

theorem setBondStereo_sameExceptStereo (m : ROMol) (p : Nat) (s : BondStereo) :
    (m.setBondStereo p s).sameExceptStereo m := by
  refine ⟨rfl, rfl, ?_⟩
  exact updateAt_map_of_invariant (fun b => b.setStereo s) Bond.bondDir (fun _ => rfl)
    m.bonds p

theorem foldl_sameExceptStereo {ι : Type} (f : ROMol → ι → ROMol)
    (hf : ∀ m i, (f m i).sameExceptStereo m) (l : List ι) (m : ROMol) :
    (l.foldl f m).sameExceptStereo m := by
  induction l generalizing m with
  | nil => exact sameExceptStereo_refl m
  | cons i l ih =>
    simp only [List.foldl_cons]
    exact sameExceptStereo_trans (ih (f m i)) (hf m i)

theorem groupFlip_sameExceptStereo (f : _StereoGroupFlipper) (flag : Bool) (m : ROMol) :
    (f.flip flag m).sameExceptStereo m := by
  unfold _StereoGroupFlipper.flip
  split
  · exact foldl_sameExceptStereo _ (fun m ap => setAtomChiralTag_sameExceptStereo m _ _) _ _
  · apply foldl_sameExceptStereo
    intro m ap
    split
    · exact setAtomChiralTag_sameExceptStereo m _ _
    · split
      · exact setAtomChiralTag_sameExceptStereo m _ _
      · exact sameExceptStereo_refl m

theorem bondFlip_sameExceptStereo (f : _BondFlipper) (flag : Bool) (m : ROMol) :
    (f.flip flag m).sameExceptStereo m := by
  unfold _BondFlipper.flip
  split <;> exact setBondStereo_sameExceptStereo m _ _

theorem flip_sameExceptStereo (f : _Flipper) (flag : Bool) (m m' : ROMol)
    (h : f.flip flag m = some m') : m'.sameExceptStereo m := by
  cases f with
  | ofAtom a =>
    cases a with
    | mk atom =>
      cases atom with
      | none => simp [_Flipper.flip, _AtomFlipper.flip] at h
      | some p =>
        cases flag <;> simp [_Flipper.flip, _AtomFlipper.flip] at h <;> rw [← h] <;>
          exact setAtomChiralTag_sameExceptStereo m _ _
  | ofBond b =>
    simp only [_Flipper.flip, Option.some.injEq] at h
    rw [← h]
    exact bondFlip_sameExceptStereo b flag m
  | ofGroup g =>
    simp only [_Flipper.flip, Option.some.injEq] at h
    rw [← h]
    exact groupFlip_sameExceptStereo g flag m

theorem foldlM_option_invariant {σ ι : Type} (P : σ → Prop) (f : σ → ι → Option σ)
    (hstep : ∀ s i s', P s → f s i = some s' → P s') (l : List ι) (init s' : σ)
    (hinit : P init) (h : l.foldlM f init = some s') : P s' := by
  induction l generalizing init with
  | nil =>
    simp only [List.foldlM_nil] at h
    injection h with h
    rw [← h]
    exact hinit
  | cons i l ih =>
    simp only [List.foldlM_cons] at h
    cases hfi : f init i with
    | none => simp [hfi] at h
    | some s =>
      simp only [hfi] at h
      exact ih s (hstep init i s hinit hfi) h

theorem applyFlips_sameExceptStereo (flippers : List _Flipper) (n x : Nat) (m m' : ROMol)
    (h : applyFlips flippers n x m = some m') : m'.sameExceptStereo m := by
  unfold applyFlips at h
  refine foldlM_option_invariant (fun s => s.sameExceptStereo m) _ ?_ _ m m'
    (sameExceptStereo_refl m) h
  intro s i s' hs hstep
  cases hflag : flipFlag x i with
  | none => simp [hflag] at hstep
  | some flag =>
    cases hfl : flippers[i]? with
    | none => simp [hflag, hfl] at hstep
    | some flipper =>
      simp only [hflag, hfl] at hstep
      exact sameExceptStereo_trans (flip_sameExceptStereo flipper flag s s' hstep) hs

theorem loopBody_mol (ext : Collaborators) (options : StereoEnumerationOptions)
    (flippers : List _Flipper) (n : Nat) (st st' : LoopState) (x : Nat)
    (h : loopBody ext options flippers n st x = some st') :
    applyFlips flippers n x st.mol = some st'.mol := by
  unfold loopBody at h
  cases hap : applyFlips flippers n x st.mol with
  | none => simp [hap] at h
  | some m =>
    simp only [hap] at h
    by_cases hu : options.unique = true
    · by_cases hseen : ext.MolToSmiles (ext.assignStereochemistry (ext.clearComputedProps
          (ext.setDoubleBondNeighborDirections (copyForIsomer m)))) ∈ st.seen_isomers
      · simp [hu, hseen] at h
        rw [← h]
      · simp [hu, hseen] at h
        rw [← h]
    · simp [hu] at h
      rw [← h]

/-- C6 (as amended): the call works on the caller's graph in place.  The
clearing step and the perception call change it first; from then on, whenever
the call's behaviour is defined, the graph it leaves differs from that state at
most in chirality tags and bond stereo descriptors (those are what the flips
set): the stereo groups, every atom's degree, atomic number and properties and
every bond's direction marker are as perception left them. -/
theorem caller_graph_changes_only_stereo (ext : Collaborators) (mol : ROMol)
    (options : StereoEnumerationOptions) (m : ROMol)
    (h : (enumerate_stereoisomers ext mol options).callerGraph = some m) :
    m.sameExceptStereo (ext.findPotentialStereo (clearStale mol)) := by
  unfold enumerate_stereoisomers at h
  by_cases hn : (_get_flippers ext (clearStale mol) options).2.length = 0
  · simp only [hn, if_true, Outcome.callerGraph, Option.some.injEq] at h
    rw [← h]
    exact sameExceptStereo_refl _
  · simp only [hn, if_false, Outcome.callerGraph, Option.map_eq_some'] at h
    obtain ⟨st, hst, hm⟩ := h
    rw [← hm]
    refine foldlM_option_invariant
      (fun s => s.mol.sameExceptStereo (ext.findPotentialStereo (clearStale mol))) _ ?_ _ _ st
      (sameExceptStereo_refl _) hst
    intro s x s' hs hstep
    exact sameExceptStereo_trans
      (applyFlips_sameExceptStereo _ _ _ _ _ (loopBody_mol _ _ _ _ _ _ _ hstep)) hs

/-- C6, an instance: one bond marked "any" with a stale direction, sampled with
`maxIsomers` = 1. -/
theorem caller_graph_changes_only_stereo_witness :
    (enumerate_stereoisomers inertCollaborators eitherAnyGraph
        { plainOptions with max_isomers := 1 }).callerGraph
        = some { atoms := [],
                 bonds := [{ stereo := BondStereo.STEREOTRANS, bondDir := BondDir.NONE }],
                 stereoGroups := [] }
      ∧ ROMol.sameExceptStereo
          { atoms := [],
            bonds := [{ stereo := BondStereo.STEREOTRANS, bondDir := BondDir.NONE }],
            stereoGroups := [] }
          (inertCollaborators.findPotentialStereo (clearStale eitherAnyGraph)) :=
  ⟨by decide, caller_graph_changes_only_stereo inertCollaborators eitherAnyGraph
    { plainOptions with max_isomers := 1 } _ (by decide)⟩

/-- C6 as stated fails: for one bond marked "any" with direction `EITHERDOUBLE`
and `maxIsomers` = 1, the call iterates over the index 0 and leaves the
caller's own bond with descriptor trans and direction `NONE`. -/
theorem caller_graph_is_mutated :
    (enumerate_stereoisomers inertCollaborators eitherAnyGraph
        { plainOptions with max_isomers := 1 }).indices = [0]
      ∧ (enumerate_stereoisomers inertCollaborators eitherAnyGraph
          { plainOptions with max_isomers := 1 }).callerGraph
          = some { atoms := [],
                   bonds := [{ stereo := BondStereo.STEREOTRANS, bondDir := BondDir.NONE }],
                   stereoGroups := [] }
      ∧ (enumerate_stereoisomers inertCollaborators eitherAnyGraph
          { plainOptions with max_isomers := 1 }).callerGraph ≠ some eitherAnyGraph := by
  decide

/-! ## The stereo-group flipper -/

theorem foldl_push_map {α β : Type} (f : α → β) (l : List α) (init : List β) :
    l.foldl (fun acc x => acc ++ [f x]) init = init ++ l.map f := by
  induction l generalizing init with
  | nil => simp
  | cons x xs ih => simp [ih]

theorem new_original_parities (mol : ROMol) (group : StereoGroup) :
    (_StereoGroupFlipper.new mol group)._original_parities
      = group.atoms.map (fun a => (a, mol.getAtomChiralTag a)) := by
  unfold _StereoGroupFlipper.new
  simp only [foldl_push_map, List.nil_append]

theorem groupFlip_true_eq (f : _StereoGroupFlipper) (s : ROMol) :
    f.flip true s = f._original_parities.foldl (writeStep some) s := by
  unfold _StereoGroupFlipper.flip
  rfl

theorem groupFlip_false_eq (f : _StereoGroupFlipper) (s : ROMol) :
    f.flip false s = f._original_parities.foldl (writeStep invertTag) s := by
  unfold _StereoGroupFlipper.flip
  simp only [Bool.false_eq_true, if_false]
  congr 1
  funext m ap
  obtain ⟨a, t⟩ := ap
  cases t <;> simp [writeStep, invertTag]

theorem writeStep_getElem? (h : ChiralType → Option ChiralType) (m : ROMol)
    (ap : Nat × ChiralType) (p : Nat) :
    (writeStep h m ap).atoms[p]?
      = (m.atoms[p]?).map (fun a =>
          a.setChiralTag (if ap.1 = p then (h ap.2).getD a.chiralTag else a.chiralTag)) := by
  unfold writeStep
  cases hh : h ap.2 with
  | none =>
    simp only [Option.getD_none, ite_self]
    cases m.atoms[p]? <;> rfl
  | some t =>
    simp only [Option.getD_some, ROMol.setAtomChiralTag]
    by_cases hp : ap.1 = p
    · subst hp
      simp [updateAt_getElem?_self]
    · rw [updateAt_getElem?_ne _ _ _ _ hp]
      simp only [hp, if_false]
      cases m.atoms[p]? <;> rfl

theorem writeFold_getElem? (h : ChiralType → Option ChiralType)
    (l : List (Nat × ChiralType)) (s : ROMol) (p : Nat) :
    (l.foldl (writeStep h) s).atoms[p]?
      = (s.atoms[p]?).map (fun a => a.setChiralTag (tagAfter h l p a.chiralTag)) := by
  induction l generalizing s with
  | nil =>
    simp only [List.foldl_nil, tagAfter]
    cases s.atoms[p]? <;> rfl
  | cons ap l ih =>
    simp only [List.foldl_cons]
    rw [ih, writeStep_getElem?]
    cases s.atoms[p]? with
    | none => rfl
    | some a => simp [tagAfter, Atom.setChiralTag]

theorem writeFold_bonds (h : ChiralType → Option ChiralType)
    (l : List (Nat × ChiralType)) (s : ROMol) :
    (l.foldl (writeStep h) s).bonds = s.bonds
      ∧ (l.foldl (writeStep h) s).stereoGroups = s.stereoGroups := by
  induction l generalizing s with
  | nil => exact ⟨rfl, rfl⟩
  | cons ap l ih =>
    simp only [List.foldl_cons]
    rw [(ih _).1, (ih _).2]
    unfold writeStep
    cases h ap.2 <;> exact ⟨rfl, rfl⟩

theorem tagAfter_cons (h : ChiralType → Option ChiralType) (ap : Nat × ChiralType)
    (l : List (Nat × ChiralType)) (p : Nat) (t : ChiralType) :
    tagAfter h (ap :: l) p t
      = tagAfter h l p (if ap.1 = p then (h ap.2).getD t else t) := rfl

theorem tagAfter_captured (h : ChiralType → Option ChiralType) (g : Nat → ChiralType)
    (as : List Nat) (p : Nat) (t : ChiralType) :
    tagAfter h (as.map (fun a => (a, g a))) p t
      = if p ∈ as then (h (g p)).getD t else t := by
  induction as generalizing t with
  | nil => simp [tagAfter]
  | cons a as ih =>
    rw [List.map_cons, tagAfter_cons, ih]
    by_cases hap : a = p
    · subst hap
      simp only [if_true, List.mem_cons, true_or]
      cases h (g a) <;> simp
    · have hpa : ¬ p = a := fun e => hap e.symm
      simp [hap, hpa]

theorem tagAfter_id_or_const (h : ChiralType → Option ChiralType)
    (l : List (Nat × ChiralType)) (p : Nat) :
    (∀ t, tagAfter h l p t = t) ∨ (∃ c, ∀ t, tagAfter h l p t = c) := by
  induction l with
  | nil => exact Or.inl (fun _ => rfl)
  | cons ap l ih =>
    rcases ih with hid | ⟨c, hc⟩
    · by_cases hap : ap.1 = p
      · cases hh : h ap.2 with
        | none =>
          left
          intro t
          rw [tagAfter_cons, hid]
          simp [hap, hh]
        | some c =>
          right
          refine ⟨c, fun t => ?_⟩
          rw [tagAfter_cons, hid]
          simp [hap, hh]
      · left
        intro t
        rw [tagAfter_cons, hid]
        simp [hap]
    · right
      exact ⟨c, fun t => by rw [tagAfter_cons, hc]⟩

theorem tagAfter_idem (h : ChiralType → Option ChiralType)
    (l : List (Nat × ChiralType)) (p : Nat) (t : ChiralType) :
    tagAfter h l p (tagAfter h l p t) = tagAfter h l p t := by
  rcases tagAfter_id_or_const h l p with hid | ⟨c, hc⟩
  · rw [hid, hid]
  · rw [hc, hc]

theorem ROMol.ext_of_parts (a b : ROMol) (h1 : a.atoms = b.atoms) (h2 : a.bonds = b.bonds)
    (h3 : a.stereoGroups = b.stereoGroups) : a = b := by
  cases a
  cases b
  simp only at h1 h2 h3
  rw [h1, h2, h3]

theorem writeFold_idem (h : ChiralType → Option ChiralType)
    (l : List (Nat × ChiralType)) (s : ROMol) :
    l.foldl (writeStep h) (l.foldl (writeStep h) s) = l.foldl (writeStep h) s := by
  apply ROMol.ext_of_parts
  · apply List.ext_getElem?
    intro p
    rw [writeFold_getElem? h l (l.foldl (writeStep h) s), writeFold_getElem? h l s]
    cases s.atoms[p]? with
    | none => rfl
    | some a => simp [Atom.setChiralTag, tagAfter_idem]
  · rw [(writeFold_bonds h l _).1]
  · rw [(writeFold_bonds h l _).2]

theorem getAtomChiralTag_writeFold (h : ChiralType → Option ChiralType)
    (l : List (Nat × ChiralType)) (s : ROMol) (p : Nat) :
    (l.foldl (writeStep h) s).getAtomChiralTag p
      = if p < s.atoms.length then tagAfter h l p (s.getAtomChiralTag p)
        else ChiralType.CHI_UNSPECIFIED := by
  unfold ROMol.getAtomChiralTag
  rw [writeFold_getElem?]
  by_cases hp : p < s.atoms.length
  · rw [List.getElem?_eq_getElem hp]
    simp [hp, Atom.setChiralTag]
  · rw [List.getElem?_eq_none (by omega)]
    simp [hp]

theorem getAtomChiralTag_of_length_le (m : ROMol) (p : Nat) (hp : ¬ p < m.atoms.length) :
    m.getAtomChiralTag p = ChiralType.CHI_UNSPECIFIED := by
  unfold ROMol.getAtomChiralTag
  rw [List.getElem?_eq_none (by omega)]

theorem groupFlip_atoms_length (f : _StereoGroupFlipper) (flag : Bool) (s : ROMol) :
    (f.flip flag s).atoms.length = s.atoms.length := by
  have h := congrArg List.length (groupFlip_sameExceptStereo f flag s).2.1
  simpa using h

theorem groupFlip_true_tag (mol : ROMol) (group : StereoGroup) (s : ROMol)
    (hlen : s.atoms.length = mol.atoms.length) (p : Nat) (hp : p ∈ group.atoms) :
    ((_StereoGroupFlipper.new mol group).flip true s).getAtomChiralTag p
      = mol.getAtomChiralTag p := by
  rw [groupFlip_true_eq, new_original_parities, getAtomChiralTag_writeFold, tagAfter_captured]
  by_cases hin : p < s.atoms.length
  · simp [hin, hp]
  · rw [if_neg hin]
    exact (getAtomChiralTag_of_length_le mol p (by omega)).symm

theorem groupFlip_false_tag (mol : ROMol) (group : StereoGroup) (s : ROMol)
    (hlen : s.atoms.length = mol.atoms.length) (p : Nat) (hp : p ∈ group.atoms) :
    ((_StereoGroupFlipper.new mol group).flip false s).getAtomChiralTag p
      = (invertTag (mol.getAtomChiralTag p)).getD (s.getAtomChiralTag p) := by
  rw [groupFlip_false_eq, new_original_parities, getAtomChiralTag_writeFold, tagAfter_captured]
  by_cases hin : p < s.atoms.length
  · simp [hin, hp]
  · rw [if_neg hin, getAtomChiralTag_of_length_le mol p (by omega),
      getAtomChiralTag_of_length_le s p hin]
    rfl

/-- C11: for a stereo-group flipper constructed for `group` on the graph `mol`
(whatever tags the member atoms have there), `flip(true)`, then `flip(false)`,
then `flip(true)`, applied to any state of that graph, leaves every member atom
with exactly the tag it had at construction. -/
theorem group_flip_round_trip (mol : ROMol) (group : StereoGroup) (s : ROMol)
    (hlen : s.atoms.length = mol.atoms.length) (p : Nat) (hp : p ∈ group.atoms) :
    ((_StereoGroupFlipper.new mol group).flip true
        ((_StereoGroupFlipper.new mol group).flip false
          ((_StereoGroupFlipper.new mol group).flip true s))).getAtomChiralTag p
      = mol.getAtomChiralTag p := by
  apply groupFlip_true_tag mol group _ _ p hp
  rw [groupFlip_atoms_length, groupFlip_atoms_length, hlen]

/-- C11, an instance: the second member of a group of three. -/
theorem group_flip_round_trip_witness :
    (groupedCentres.atoms.length = groupedCentres.atoms.length
      ∧ 1 ∈ groupedCentresGroup.atoms)
    ∧ ((_StereoGroupFlipper.new groupedCentres groupedCentresGroup).flip true
        ((_StereoGroupFlipper.new groupedCentres groupedCentresGroup).flip false
          ((_StereoGroupFlipper.new groupedCentres groupedCentresGroup).flip true
            groupedCentres))).getAtomChiralTag 1
      = groupedCentres.getAtomChiralTag 1 :=
  ⟨⟨rfl, by decide⟩,
    group_flip_round_trip groupedCentres groupedCentresGroup groupedCentres rfl 1 (by decide)⟩

/-- C12: for a stereo-group flipper constructed on `mol` and any state `s` of
that graph, `flip(true)` leaves every member atom with its captured tag, and
`flip(false)` leaves a member captured clockwise with counter-clockwise and a
member captured counter-clockwise with clockwise, whatever its tag in `s` was
(a member captured unspecified keeps the tag it has in `s`). -/
theorem group_flip_relative_to_captured (mol : ROMol) (group : StereoGroup) (s : ROMol)
    (hlen : s.atoms.length = mol.atoms.length) (p : Nat) (hp : p ∈ group.atoms) :
    ((_StereoGroupFlipper.new mol group).flip true s).getAtomChiralTag p
        = mol.getAtomChiralTag p
      ∧ ((_StereoGroupFlipper.new mol group).flip false s).getAtomChiralTag p
        = (match mol.getAtomChiralTag p with
            | ChiralType.CHI_TETRAHEDRAL_CW => ChiralType.CHI_TETRAHEDRAL_CCW
            | ChiralType.CHI_TETRAHEDRAL_CCW => ChiralType.CHI_TETRAHEDRAL_CW
            | ChiralType.CHI_UNSPECIFIED => s.getAtomChiralTag p) := by
  refine ⟨groupFlip_true_tag mol group s hlen p hp, ?_⟩
  rw [groupFlip_false_tag mol group s hlen p hp]
  cases mol.getAtomChiralTag p <;> rfl

/-- C12, an instance: the first member of a group of three, captured clockwise,
in a state where all three atoms have been set counter-clockwise. -/
theorem group_flip_relative_to_captured_witness :
    ((((groupedCentres.setAtomChiralTag 0 ChiralType.CHI_TETRAHEDRAL_CCW).setAtomChiralTag 2
          ChiralType.CHI_TETRAHEDRAL_CCW).atoms.length = groupedCentres.atoms.length)
      ∧ 0 ∈ groupedCentresGroup.atoms)
    ∧ ((_StereoGroupFlipper.new groupedCentres groupedCentresGroup).flip false
        ((groupedCentres.setAtomChiralTag 0 ChiralType.CHI_TETRAHEDRAL_CCW).setAtomChiralTag 2
          ChiralType.CHI_TETRAHEDRAL_CCW)).getAtomChiralTag 0
      = ChiralType.CHI_TETRAHEDRAL_CCW :=
  ⟨⟨by decide, by decide⟩,
    (group_flip_relative_to_captured groupedCentres groupedCentresGroup
      ((groupedCentres.setAtomChiralTag 0 ChiralType.CHI_TETRAHEDRAL_CCW).setAtomChiralTag 2
        ChiralType.CHI_TETRAHEDRAL_CCW) (by decide) 0 (by decide)).2⟩

/-! ## Algebra of `flip` -/

theorem updateAt_idem {α : Type} (f : α → α) (hf : ∀ a, f (f a) = f a) (l : List α)
    (i : Nat) : updateAt f (updateAt f l i) i = updateAt f l i := by
  induction l generalizing i with
  | nil => rfl
  | cons x xs ih =>
    cases i with
    | zero => simp [updateAt, hf]
    | succ i => simp [updateAt, ih]

theorem setBondStereo_idem (m : ROMol) (p : Nat) (st : BondStereo) :
    (m.setBondStereo p st).setBondStereo p st = m.setBondStereo p st := by
  unfold ROMol.setBondStereo
  simp only
  have h := updateAt_idem (fun b : Bond => b.setStereo st) (fun _ => rfl) m.bonds p
  rw [h]

theorem setAtomChiralTag_idem (m : ROMol) (p : Nat) (t : ChiralType) :
    (m.setAtomChiralTag p t).setAtomChiralTag p t = m.setAtomChiralTag p t := by
  unfold ROMol.setAtomChiralTag
  simp only
  have h := updateAt_idem (fun a : Atom => a.setChiralTag t) (fun _ => rfl) m.atoms p
  rw [h]

theorem bondFlip_idem (f : _BondFlipper) (b : Bool) (s : ROMol) :
    f.flip b (f.flip b s) = f.flip b s := by
  cases b <;> simp [_BondFlipper.flip, setBondStereo_idem]

theorem groupFlip_idem (f : _StereoGroupFlipper) (b : Bool) (s : ROMol) :
    f.flip b (f.flip b s) = f.flip b s := by
  cases b
  · rw [groupFlip_false_eq, groupFlip_false_eq, writeFold_idem]
  · rw [groupFlip_true_eq, groupFlip_true_eq, writeFold_idem]

theorem atomFlip_idem (f : _AtomFlipper) (b : Bool) (s : ROMol) :
    (f.flip b s).bind (f.flip b) = f.flip b s := by
  cases f with
  | mk atom =>
    cases atom with
    | none => rfl
    | some p =>
      cases b <;> simp [_AtomFlipper.flip, setAtomChiralTag_idem]

/-- C13: `flip` is idempotent for every flipper variant: for every bond flipper
and every stereo-group flipper, every flag and every graph state, applying
`flip(b)` twice gives the state that applying it once gives; the same holds for
every atom flipper (one whose member points to an atom always yields a state;
one whose member was never set yields none, once or twice); and so it holds for
`flip` called through the base class. -/
theorem flip_idempotent (b : Bool) (s : ROMol) :
    (∀ f : _BondFlipper, f.flip b (f.flip b s) = f.flip b s)
      ∧ (∀ f : _StereoGroupFlipper, f.flip b (f.flip b s) = f.flip b s)
      ∧ (∀ f : _AtomFlipper, (f.flip b s).bind (f.flip b) = f.flip b s)
      ∧ (∀ p : Nat, (({ atom := some p } : _AtomFlipper).flip b s).isSome = true)
      ∧ (∀ f : _Flipper, (f.flip b s).bind (f.flip b) = f.flip b s) := by
  refine ⟨fun f => bondFlip_idem f b s, fun f => groupFlip_idem f b s,
    fun f => atomFlip_idem f b s, ?_, ?_⟩
  · intro p
    cases b <;> rfl
  · intro f
    cases f with
    | ofAtom a => exact atomFlip_idem a b s
    | ofBond f => simp [_Flipper.flip, bondFlip_idem]
    | ofGroup f => simp [_Flipper.flip, groupFlip_idem]

theorem getAtomChiralTag_setAtomChiralTag_self (m : ROMol) (q : Nat) (t : ChiralType) :
    (m.setAtomChiralTag q t).getAtomChiralTag q
      = if q < m.atoms.length then t else ChiralType.CHI_UNSPECIFIED := by
  unfold ROMol.getAtomChiralTag ROMol.setAtomChiralTag
  simp only [updateAt_getElem?_self]
  by_cases hq : q < m.atoms.length
  · rw [List.getElem?_eq_getElem hq]
    simp [hq, Atom.setChiralTag]
  · rw [List.getElem?_eq_none (by omega)]
    simp [hq]

theorem bondFlip_own_stereo (j : Nat) (b : Bool) (s : ROMol) :
    (((_BondFlipper.new j).flip b s).bonds[j]?).map Bond.stereo
      = if j < s.bonds.length then
          some (if b = true then BondStereo.STEREOCIS else BondStereo.STEREOTRANS)
        else none := by
  by_cases hj : j < s.bonds.length
  · have hget : s.bonds[j]? = some s.bonds[j] := List.getElem?_eq_getElem hj
    cases b <;>
      simp [_BondFlipper.flip, _BondFlipper.new, ROMol.setBondStereo, updateAt_getElem?_self,
        hget, Bond.setStereo, hj]
  · have hget : s.bonds[j]? = none := List.getElem?_eq_none (by omega)
    cases b <;>
      simp [_BondFlipper.flip, _BondFlipper.new, ROMol.setBondStereo, updateAt_getElem?_self,
        hget, hj]

/-- C14 (as amended): `flip` does not read the state it overwrites, with one
exception.  For any two states of the same graph and any flag, the descriptor
of a bond flipper's bond after `flip(b)` is the same from both states; so is
the tag of the atom an atom flipper's member points to; so is every member
atom's tag after `flip(true)` of a stereo-group flipper, and after
`flip(false)` for every member whose captured tag is clockwise or
counter-clockwise.  A member whose captured tag is unspecified is not written
by `flip(false)`: it keeps the tag it had in the state before. -/
theorem flip_history_independent (b : Bool) (mol s1 s2 : ROMol) (group : StereoGroup)
    (j q p : Nat)
    (ha1 : s1.atoms.length = mol.atoms.length) (ha2 : s2.atoms.length = mol.atoms.length)
    (hb : s1.bonds.length = s2.bonds.length) (hp : p ∈ group.atoms) :
    (((_BondFlipper.new j).flip b s1).bonds[j]?).map Bond.stereo
        = (((_BondFlipper.new j).flip b s2).bonds[j]?).map Bond.stereo
      ∧ ((({ atom := some q } : _AtomFlipper).flip b s1).map (fun m => m.getAtomChiralTag q)
          = (({ atom := some q } : _AtomFlipper).flip b s2).map (fun m => m.getAtomChiralTag q))
      ∧ ((_StereoGroupFlipper.new mol group).flip true s1).getAtomChiralTag p
          = ((_StereoGroupFlipper.new mol group).flip true s2).getAtomChiralTag p
      ∧ (mol.getAtomChiralTag p = ChiralType.CHI_UNSPECIFIED
          ∨ ((_StereoGroupFlipper.new mol group).flip false s1).getAtomChiralTag p
              = ((_StereoGroupFlipper.new mol group).flip false s2).getAtomChiralTag p)
      ∧ (mol.getAtomChiralTag p ≠ ChiralType.CHI_UNSPECIFIED
          ∨ (((_StereoGroupFlipper.new mol group).flip false s1).getAtomChiralTag p
                = s1.getAtomChiralTag p
              ∧ ((_StereoGroupFlipper.new mol group).flip false s2).getAtomChiralTag p
                = s2.getAtomChiralTag p)) := by
  refine ⟨?_, ?_, ?_, ?_, ?_⟩
  · rw [bondFlip_own_stereo, bondFlip_own_stereo, hb]
  · cases b <;>
      simp [_AtomFlipper.flip, getAtomChiralTag_setAtomChiralTag_self, ha1, ha2]
  · rw [groupFlip_true_tag mol group s1 ha1 p hp, groupFlip_true_tag mol group s2 ha2 p hp]
  · rw [groupFlip_false_tag mol group s1 ha1 p hp, groupFlip_false_tag mol group s2 ha2 p hp]
    cases mol.getAtomChiralTag p
    · exact Or.inl rfl
    · exact Or.inr rfl
    · exact Or.inr rfl
  · rw [groupFlip_false_tag mol group s1 ha1 p hp, groupFlip_false_tag mol group s2 ha2 p hp]
    cases mol.getAtomChiralTag p
    · exact Or.inr ⟨rfl, rfl⟩
    · exact Or.inl (by decide)
    · exact Or.inl (by decide)

/-- C14, an instance: the group of three, from the state as constructed and
from the state with the first atom set counter-clockwise. -/
theorem flip_history_independent_witness :
    ((groupedCentres.setAtomChiralTag 0 ChiralType.CHI_TETRAHEDRAL_CCW).atoms.length
        = groupedCentres.atoms.length
      ∧ groupedCentres.atoms.length = groupedCentres.atoms.length
      ∧ (groupedCentres.setAtomChiralTag 0 ChiralType.CHI_TETRAHEDRAL_CCW).bonds.length
        = groupedCentres.bonds.length
      ∧ 0 ∈ groupedCentresGroup.atoms)
    ∧ ((_StereoGroupFlipper.new groupedCentres groupedCentresGroup).flip true
          (groupedCentres.setAtomChiralTag 0 ChiralType.CHI_TETRAHEDRAL_CCW)).getAtomChiralTag 0
        = ((_StereoGroupFlipper.new groupedCentres groupedCentresGroup).flip true
          groupedCentres).getAtomChiralTag 0 :=
  ⟨⟨by decide, rfl, by decide, by decide⟩,
    (flip_history_independent true groupedCentres
      (groupedCentres.setAtomChiralTag 0 ChiralType.CHI_TETRAHEDRAL_CCW) groupedCentres
      groupedCentresGroup 0 0 0 (by decide) rfl (by decide) (by decide)).2.2.1⟩

/-- C14 as stated fails: the third member of the group is captured unspecified;
from a state where it is clockwise and from a state where it is
counter-clockwise, `flip(false)` leaves it clockwise in the one and
counter-clockwise in the other. -/
theorem group_flip_false_keeps_unspecified_member :
    groupedCentres.getAtomChiralTag 2 = ChiralType.CHI_UNSPECIFIED
      ∧ 2 ∈ groupedCentresGroup.atoms
      ∧ ((_StereoGroupFlipper.new groupedCentres groupedCentresGroup).flip false
          (groupedCentres.setAtomChiralTag 2 ChiralType.CHI_TETRAHEDRAL_CW)).getAtomChiralTag 2
        = ChiralType.CHI_TETRAHEDRAL_CW
      ∧ ((_StereoGroupFlipper.new groupedCentres groupedCentresGroup).flip false
          (groupedCentres.setAtomChiralTag 2 ChiralType.CHI_TETRAHEDRAL_CCW)).getAtomChiralTag 2
        = ChiralType.CHI_TETRAHEDRAL_CCW
      ∧ ((_StereoGroupFlipper.new groupedCentres groupedCentresGroup).flip false
          (groupedCentres.setAtomChiralTag 2 ChiralType.CHI_TETRAHEDRAL_CW)).getAtomChiralTag 2
        ≠ ((_StereoGroupFlipper.new groupedCentres groupedCentresGroup).flip false
          (groupedCentres.setAtomChiralTag 2 ChiralType.CHI_TETRAHEDRAL_CCW)).getAtomChiralTag 2 := by
  decide

theorem groupFlip_eq_writeFold (f : _StereoGroupFlipper) (b : Bool) (s : ROMol) :
    f.flip b s
      = f._original_parities.foldl (writeStep (if b = true then some else invertTag)) s := by
  cases b
  · exact groupFlip_false_eq f s
  · exact groupFlip_true_eq f s

/-- C20: frame of `flip`.  A bond flipper's `flip(b)` leaves the atoms, the
stereo groups, every bond's direction marker and every bond other than its own
as they were; a stereo-group flipper's `flip(b)` leaves the bonds, the stereo
groups, every atom's degree, atomic number and properties and every atom that
was not a member of the group at construction as they were. -/
theorem flip_frame (b : Bool) (s mol : ROMol) (group : StereoGroup) (f : _BondFlipper) :
    ((f.flip b s).atoms = s.atoms
        ∧ (f.flip b s).stereoGroups = s.stereoGroups
        ∧ (f.flip b s).bonds.map Bond.bondDir = s.bonds.map Bond.bondDir
        ∧ (f.flip b s).bonds.length = s.bonds.length
        ∧ ∀ j, j ≠ f.bond → (f.flip b s).bonds[j]? = s.bonds[j]?)
      ∧ (((_StereoGroupFlipper.new mol group).flip b s).bonds = s.bonds
        ∧ ((_StereoGroupFlipper.new mol group).flip b s).stereoGroups = s.stereoGroups
        ∧ ((_StereoGroupFlipper.new mol group).flip b s).atoms.map
              (fun a => (a.degree, a.atomicNum, a.props))
            = s.atoms.map (fun a => (a.degree, a.atomicNum, a.props))
        ∧ ∀ p, p ∉ group.atoms →
            ((_StereoGroupFlipper.new mol group).flip b s).atoms[p]? = s.atoms[p]?) := by
  constructor
  · refine ⟨?_, ?_, (bondFlip_sameExceptStereo f b s).2.2, ?_, ?_⟩
    · cases b <;> rfl
    · cases b <;> rfl
    · cases b <;> simp [_BondFlipper.flip, ROMol.setBondStereo, updateAt_length]
    · intro j hj
      cases b <;>
        simp [_BondFlipper.flip, ROMol.setBondStereo,
          updateAt_getElem?_ne _ _ _ _ (fun e => hj e.symm)]
  · refine ⟨?_, ?_, (groupFlip_sameExceptStereo _ b s).2.1, ?_⟩
    · rw [groupFlip_eq_writeFold]
      exact (writeFold_bonds _ _ _).1
    · rw [groupFlip_eq_writeFold]
      exact (writeFold_bonds _ _ _).2
    · intro p hp
      rw [groupFlip_eq_writeFold, writeFold_getElem?, new_original_parities]
      cases s.atoms[p]? with
      | none => rfl
      | some a =>
        simp only [Option.map_some', tagAfter_captured, hp, if_false]
        rfl

/-! ## Seeding -/

theorem ordered_atoms_eq (mol : ROMol) :
    ordered_atoms mol = (mol.atoms.map Atom.degreeAndNumber).insertionSort pairLE := by
  unfold ordered_atoms
  rw [foldl_push_map, List.nil_append]
  rfl

theorem pairLE_total (a b : Int × Int) : pairLE a b ∨ pairLE b a := by
  unfold pairLE
  omega

theorem pairLE_trans (a b c : Int × Int) (hab : pairLE a b) (hbc : pairLE b c) :
    pairLE a c := by
  unfold pairLE at *
  omega

theorem pairLE_antisymm (a b : Int × Int) (hab : pairLE a b) (hba : pairLE b a) : a = b := by
  unfold pairLE at *
  apply Prod.ext <;> omega

theorem ordered_atoms_of_perm (m1 m2 : ROMol)
    (h : (m1.atoms.map Atom.degreeAndNumber).Perm (m2.atoms.map Atom.degreeAndNumber)) :
    ordered_atoms m1 = ordered_atoms m2 := by
  haveI : IsTotal (Int × Int) pairLE := ⟨pairLE_total⟩
  haveI : IsTrans (Int × Int) pairLE := ⟨pairLE_trans⟩
  haveI : IsAntisymm (Int × Int) pairLE := ⟨pairLE_antisymm⟩
  rw [ordered_atoms_eq, ordered_atoms_eq]
  apply List.eq_of_perm_of_sorted (r := pairLE)
  · exact ((List.perm_insertionSort pairLE _).trans h).trans
      (List.perm_insertionSort pairLE _).symm
  · exact List.sorted_insertionSort pairLE _
  · exact List.sorted_insertionSort pairLE _

/-- C15: when two graphs have atom sequences that are permutations of each
other as far as the (degree, atomic number) pair of each atom goes, the sorted
pair list that the call hashes is the same for both, hence so are the derived
seed, the generator seeded from it and the indices sampled with it, whatever
the order the atoms were added in. -/
theorem derived_seed_invariant (ext : Collaborators) (m1 m2 : ROMol)
    (h : (m1.atoms.map Atom.degreeAndNumber).Perm (m2.atoms.map Atom.degreeAndNumber)) :
    ordered_atoms m1 = ordered_atoms m2
      ∧ ext.hash (ordered_atoms m1) = ext.hash (ordered_atoms m2)
      ∧ (∀ options n, chooseRand ext m1 options n = chooseRand ext m2 options n)
      ∧ (∀ options n, combinationSource ext m1 options n
          = combinationSource ext m2 options n) := by
  have hord := ordered_atoms_of_perm m1 m2 h
  refine ⟨hord, by rw [hord], ?_, ?_⟩
  · intro options n
    unfold chooseRand
    rw [hord]
  · intro options n
    unfold combinationSource chooseRand
    rw [hord]

/-- C15, an instance: a carbon and an oxygen added in either order. -/
theorem derived_seed_invariant_witness :
    (carbonThenOxygen.atoms.map Atom.degreeAndNumber).Perm
        (oxygenThenCarbon.atoms.map Atom.degreeAndNumber)
      ∧ ordered_atoms carbonThenOxygen = ordered_atoms oxygenThenCarbon :=
  ⟨List.Perm.swap _ _ _,
    (derived_seed_invariant inertCollaborators carbonThenOxygen oxygenThenCarbon
      (List.Perm.swap _ _ _)).1⟩

/-- C16 (as amended): in sampled mode (`maxIsomers` not 0 and below 2^n) the
generator is seeded with the seed `s` of the options whenever `s` is not 0, and
the structure-derived seed is not used; the seed 0 reads as "no seed supplied"
and the generator is seeded with the hash of the sorted (degree, atomic
number) pairs. -/
theorem supplied_seed_used_unless_zero (ext : Collaborators) (mol : ROMol)
    (options : StereoEnumerationOptions) (n : Nat)
    (hk : options.max_isomers ≠ 0) (hlt : options.max_isomers < 2 ^ n) :
    chooseRand ext mol options n
      = if options.rand = 0 then ext.srand (ext.hash (ordered_atoms mol))
        else ext.srand options.rand := by
  unfold chooseRand
  have hmode : ¬ (options.max_isomers = 0 ∨ 2 ^ n ≤ options.max_isomers) := by omega
  rw [if_neg hmode]

/-- C16, an instance: one flipper, `maxIsomers` = 1 and the seed 5. -/
theorem supplied_seed_used_unless_zero_witness :
    (({ plainOptions with max_isomers := 1, rand := 5 } : StereoEnumerationOptions).max_isomers
        ≠ 0
      ∧ ({ plainOptions with max_isomers := 1, rand := 5 } : StereoEnumerationOptions).max_isomers
        < 2 ^ 1)
    ∧ chooseRand seedEchoCollaborators (bondsOnly 1)
          { plainOptions with max_isomers := 1, rand := 5 } 1
        = seedEchoCollaborators.srand 5 :=
  ⟨⟨by decide, by decide⟩,
    supplied_seed_used_unless_zero seedEchoCollaborators (bondsOnly 1)
      { plainOptions with max_isomers := 1, rand := 5 } 1 (by decide) (by decide)⟩

/-- C16 as stated fails at the seed 0: with one flipper and `maxIsomers` = 1 the
mode is sampled, and with a generator that draws its seed and a hash that is
always 7 the call's generator draws 7 (the derived seed), not the supplied 0;
the index iterated over is 1, where a generator seeded with 0 gives 0. -/
theorem zero_seed_is_not_used :
    (_get_flippers seedEchoCollaborators (clearStale (bondsOnly 1))
        { plainOptions with max_isomers := 1, rand := 0 }).2.length = 1
      ∧ chooseRand seedEchoCollaborators (bondsOnly 1)
          { plainOptions with max_isomers := 1, rand := 0 } 1 0 = 7
      ∧ seedEchoCollaborators.srand 0 0 = 0
      ∧ chooseRand seedEchoCollaborators (bondsOnly 1)
          { plainOptions with max_isomers := 1, rand := 0 } 1
        ≠ seedEchoCollaborators.srand 0
      ∧ (enumerate_stereoisomers seedEchoCollaborators (bondsOnly 1)
          { plainOptions with max_isomers := 1, rand := 0 }).indices = [1]
      ∧ _UniqueRandomBitsGenerator 1 1 (seedEchoCollaborators.srand 0) = [0] := by
  refine ⟨by decide, by decide, rfl, ?_, by decide, by decide⟩
  intro h
  have h0 := congrFun h 0
  revert h0
  decide

/-! ## The count estimator and the options -/

/-- C18: `get_stereoisomer_count` reads `onlyUnassigned` and `onlyStereoGroups`
only: two options records that agree on these two give the same flipper list
and the same count, however they differ in `unique`, `maxIsomers`, the seed
and `tryEmbedding`. -/
theorem count_ignores_filtering_options (ext : Collaborators) (mol : ROMol)
    (o1 o2 : StereoEnumerationOptions)
    (hu : o1.only_unassigned = o2.only_unassigned)
    (hg : o1.only_stereo_groups = o2.only_stereo_groups) :
    (_get_flippers ext mol o1).2 = (_get_flippers ext mol o2).2
      ∧ get_stereoisomer_count ext mol o1 = get_stereoisomer_count ext mol o2 := by
  have hfl : (_get_flippers ext mol o1).2 = (_get_flippers ext mol o2).2 := by
    simp only [_get_flippers, detect, atomLoop, bondLoop, hu, hg]
  refine ⟨hfl, ?_⟩
  unfold get_stereoisomer_count
  rw [hfl]

/-- C18, an instance: three bonds marked "any"; the options differ in `unique`,
`maxIsomers`, the seed and `tryEmbedding`. -/
theorem count_ignores_filtering_options_witness :
    (plainOptions.only_unassigned
        = ({ plainOptions with unique := true, max_isomers := 2, rand := 9,
                               try_embedding := true } : StereoEnumerationOptions).only_unassigned
      ∧ plainOptions.only_stereo_groups
        = ({ plainOptions with unique := true, max_isomers := 2, rand := 9,
                               try_embedding := true } :
            StereoEnumerationOptions).only_stereo_groups)
    ∧ get_stereoisomer_count inertCollaborators (bondsOnly 3) plainOptions
        = get_stereoisomer_count inertCollaborators (bondsOnly 3)
            { plainOptions with unique := true, max_isomers := 2, rand := 9,
                                try_embedding := true } :=
  ⟨⟨rfl, rfl⟩,
    (count_ignores_filtering_options inertCollaborators (bondsOnly 3) plainOptions
      { plainOptions with unique := true, max_isomers := 2, rand := 9, try_embedding := true }
      rfl rfl).2⟩

/-! ## The loop body -/

theorem copyForIsomer_stereoGroups (m : ROMol) : (copyForIsomer m).stereoGroups = [] := by
  unfold copyForIsomer
  by_cases h : m.stereoGroups = []
  · simp [h]
  · simp [h]

theorem loopBody_pass (ext : Collaborators) (options : StereoEnumerationOptions)
    (flippers : List _Flipper) (n : Nat) (st st' : LoopState) (x : Nat)
    (h : loopBody ext options flippers n st x = some st') :
    ∃ c : Candidate, st'.passes = st.passes ++ [c] ∧ c.bitflag = x
      ∧ c.copied = copyForIsomer st'.mol
      ∧ (options.unique = true →
          (Candidate.signature ext c ∈ st.seen_isomers ∧ c.completed = false
              ∧ st'.seen_isomers = st.seen_isomers)
            ∨ (Candidate.signature ext c ∉ st.seen_isomers ∧ c.completed = true
              ∧ st'.seen_isomers = Candidate.signature ext c :: st.seen_isomers)) := by
  unfold loopBody at h
  cases hap : applyFlips flippers n x st.mol with
  | none => simp [hap] at h
  | some m =>
    simp only [hap] at h
    by_cases hu : options.unique = true
    · by_cases hseen : ext.MolToSmiles (ext.assignStereochemistry (ext.clearComputedProps
          (ext.setDoubleBondNeighborDirections (copyForIsomer m)))) ∈ st.seen_isomers
      · simp [hu, hseen] at h
        subst h
        exact ⟨_, rfl, rfl, rfl, fun _ => Or.inl ⟨hseen, rfl, rfl⟩⟩
      · simp [hu, hseen] at h
        subst h
        exact ⟨_, rfl, rfl, rfl, fun _ => Or.inr ⟨hseen, rfl, rfl⟩⟩
    · simp [hu] at h
      subst h
      exact ⟨_, rfl, rfl, rfl, fun hu' => absurd hu' hu⟩

theorem fold_passes_bitflags (ext : Collaborators) (options : StereoEnumerationOptions)
    (flippers : List _Flipper) (n : Nat) (xs : List Nat) (init st : LoopState)
    (h : xs.foldlM (loopBody ext options flippers n) init = some st) :
    st.passes.map Candidate.bitflag = init.passes.map Candidate.bitflag ++ xs := by
  induction xs generalizing init with
  | nil =>
    simp only [List.foldlM_nil] at h
    injection h with h
    rw [← h, List.append_nil]
  | cons x xs ih =>
    simp only [List.foldlM_cons] at h
    cases hb : loopBody ext options flippers n init x with
    | none => simp [hb] at h
    | some s1 =>
      simp only [hb] at h
      obtain ⟨c, hc, hx, _, _⟩ := loopBody_pass ext options flippers n init s1 x hb
      rw [ih s1 h, hc, List.map_append, List.map_singleton, hx, List.append_assoc]
      rfl

theorem keptSignatures_append_singleton (ext : Collaborators) (passes : List Candidate)
    (c : Candidate) :
    keptSignatures ext (passes ++ [c])
      = keptSignatures ext passes
          ++ (if c.completed = true then [Candidate.signature ext c] else []) := by
  unfold keptSignatures
  by_cases hc : c.completed = true
  · simp [List.filter_append, hc]
  · simp [List.filter_append, hc]

theorem split_of_append_singleton {α : Type} (l pre post : List α) (c d : α)
    (h : l ++ [c] = pre ++ d :: post) :
    (post = [] ∧ pre = l ∧ d = c) ∨ (∃ post', post = post' ++ [c] ∧ l = pre ++ d :: post') := by
  rcases List.eq_nil_or_concat post with hnil | ⟨post', e, he⟩
  · left
    subst hnil
    have h2 := List.append_inj' h rfl
    exact ⟨rfl, h2.1.symm, by simpa using h2.2.symm⟩
  · right
    subst he
    have h' : l ++ [c] = (pre ++ d :: post') ++ [e] := by
      rw [h]
      simp
    have h2 := List.append_inj' h' rfl
    have hce : c = e := by simpa using h2.2
    exact ⟨post', by rw [hce]; simp, h2.1⟩

theorem dedupInvariant_step (ext : Collaborators) (options : StereoEnumerationOptions)
    (flippers : List _Flipper) (n : Nat) (hu : options.unique = true)
    (st : LoopState) (x : Nat) (st' : LoopState) (hI : dedupInvariant ext st)
    (h : loopBody ext options flippers n st x = some st') : dedupInvariant ext st' := by
  obtain ⟨c, hpass, _, _, hcase⟩ := loopBody_pass ext options flippers n st st' x h
  obtain ⟨h1, h2, h4⟩ := hI
  have hmem : ∀ s, s ∈ keptSignatures ext st.passes ↔ s ∈ st.seen_isomers := by
    intro s
    rw [h1, List.mem_reverse]
  have hsplit : ∀ pre d post, st'.passes = pre ++ d :: post →
      (d.completed = true ↔ Candidate.signature ext d ∉ keptSignatures ext pre)
        ∨ (pre = st.passes ∧ d = c) := by
    intro pre d post hd
    rw [hpass] at hd
    rcases split_of_append_singleton _ _ _ _ _ hd with ⟨_, hpre, hdc⟩ | ⟨post', _, hl⟩
    · exact Or.inr ⟨hpre, hdc⟩
    · exact Or.inl (h4 pre d post' hl)
  rcases hcase hu with ⟨hseen, hcomp, hs⟩ | ⟨hnew, hcomp, hs⟩
  · refine ⟨?_, ?_, ?_⟩
    · rw [hpass, keptSignatures_append_singleton, hs, h1]
      simp [hcomp]
    · rw [hs]
      exact h2
    · intro pre d post hd
      rcases hsplit pre d post hd with hok | ⟨hpre, hdc⟩
      · exact hok
      · subst hpre
        subst hdc
        simp [hcomp, hmem, hseen]
  · refine ⟨?_, ?_, ?_⟩
    · rw [hpass, keptSignatures_append_singleton, hs, h1]
      simp [hcomp]
    · rw [hs]
      exact List.nodup_cons.mpr ⟨hnew, h2⟩
    · intro pre d post hd
      rcases hsplit pre d post hd with hok | ⟨hpre, hdc⟩
      · exact hok
      · subst hpre
        subst hdc
        simp [hcomp, hmem, hnew]

theorem dedupInvariant_init (ext : Collaborators) (m : ROMol) :
    dedupInvariant ext { mol := m, seen_isomers := [], passes := [] } := by
  refine ⟨rfl, List.nodup_nil, ?_⟩
  intro pre c post h
  simp at h

theorem finalState_eq (ext : Collaborators) (mol : ROMol)
    (options : StereoEnumerationOptions) (st : LoopState)
    (h : (enumerate_stereoisomers ext mol options).finalState = some st) :
    (combinationSource ext (ext.findPotentialStereo (clearStale mol)) options
        (_get_flippers ext (clearStale mol) options).2.length).foldlM
      (loopBody ext options (_get_flippers ext (clearStale mol) options).2
        (_get_flippers ext (clearStale mol) options).2.length)
      { mol := ext.findPotentialStereo (clearStale mol), seen_isomers := [], passes := [] }
      = some st
    ∧ (enumerate_stereoisomers ext mol options).indices
      = combinationSource ext (ext.findPotentialStereo (clearStale mol)) options
          (_get_flippers ext (clearStale mol) options).2.length := by
  unfold enumerate_stereoisomers at h ⊢
  by_cases hn : (_get_flippers ext (clearStale mol) options).2.length = 0
  · simp [hn, Outcome.finalState] at h
  · simp only [hn, if_false, Outcome.finalState] at h
    simp only [hn, if_false, Outcome.indices]
    exact ⟨h, rfl⟩

theorem fold_mol_sameExceptStereo (ext : Collaborators) (options : StereoEnumerationOptions)
    (flippers : List _Flipper) (n : Nat) (xs : List Nat) (init st : LoopState)
    (h : xs.foldlM (loopBody ext options flippers n) init = some st) :
    st.mol.sameExceptStereo init.mol := by
  refine foldlM_option_invariant (fun s => s.mol.sameExceptStereo init.mol) _ ?_ _ _ st
    (sameExceptStereo_refl _) h
  intro s x s' hs hstep
  exact sameExceptStereo_trans
    (applyFlips_sameExceptStereo _ _ _ _ _ (loopBody_mol _ _ _ _ _ _ _ hstep)) hs

theorem fold_copies_without_groups (ext : Collaborators) (options : StereoEnumerationOptions)
    (flippers : List _Flipper) (n : Nat) (xs : List Nat) (init st : LoopState)
    (hinit : ∀ c ∈ init.passes, c.copied.stereoGroups = [])
    (h : xs.foldlM (loopBody ext options flippers n) init = some st) :
    ∀ c ∈ st.passes, c.copied.stereoGroups = [] := by
  refine foldlM_option_invariant (fun s => ∀ c ∈ s.passes, c.copied.stereoGroups = []) _ ?_
    _ _ st hinit h
  intro s x s' hs hstep c hc
  obtain ⟨d, hpass, _, hcopy, _⟩ := loopBody_pass ext options flippers n s s' x hstep
  rw [hpass, List.mem_append, List.mem_singleton] at hc
  rcases hc with hc | hc
  · exact hs c hc
  · rw [hc, hcopy]
    exact copyForIsomer_stereoGroups _

/-! ## Deduplication and the isomer copies -/

/-- C17: with `unique` on, in one call of `enumerate_stereoisomers` no two
candidates that get past the filter have the same canonical signature.  A
candidate whose signature is already in the call's set `seen_isomers` is
dropped by `continue`; one whose signature is new is inserted into the set and
runs to the end of the loop body; so a pass runs to the end exactly when its
signature differs from those of all earlier passes that did, and the set ends
up holding exactly the signatures kept.  The same holds for the loop run over
any sequence of combination indices from an empty set. -/
theorem unique_keeps_new_signatures_only (ext : Collaborators) (mol : ROMol)
    (options : StereoEnumerationOptions) (st : LoopState)
    (hu : options.unique = true)
    (h : (enumerate_stereoisomers ext mol options).finalState = some st) :
    (keptSignatures ext st.passes).Nodup
      ∧ keptSignatures ext st.passes = st.seen_isomers.reverse
      ∧ (∀ pre c post, st.passes = pre ++ c :: post →
          (c.completed = true ↔ Candidate.signature ext c ∉ keptSignatures ext pre))
      ∧ (∀ (flippers : List _Flipper) (n : Nat) (indices : List Nat) (m0 : ROMol)
          (st' : LoopState),
          indices.foldlM (loopBody ext options flippers n)
              { mol := m0, seen_isomers := [], passes := [] } = some st' →
            (keptSignatures ext st'.passes).Nodup) := by
  have hfold := (finalState_eq ext mol options st h).1
  have hI : dedupInvariant ext st :=
    foldlM_option_invariant (dedupInvariant ext) _
      (fun s x s' hs hstep => dedupInvariant_step ext options _ _ hu s x s' hs hstep)
      _ _ st (dedupInvariant_init ext _) hfold
  refine ⟨?_, hI.1, hI.2.2, ?_⟩
  · rw [hI.1]
    exact List.nodup_reverse.mpr hI.2.1
  · intro flippers n indices m0 st' hrun
    have hI' : dedupInvariant ext st' :=
      foldlM_option_invariant (dedupInvariant ext) _
        (fun s x s' hs hstep => dedupInvariant_step ext options _ _ hu s x s' hs hstep)
        _ _ st' (dedupInvariant_init ext _) hrun
    rw [hI'.1]
    exact List.nodup_reverse.mpr hI'.2.1

/-- C17, an instance: two bonds marked "any", `unique` on, `maxIsomers` = 2 and
collaborators that give every graph the same signature. -/
theorem unique_keeps_new_signatures_only_witness :
    (({ plainOptions with unique := true, max_isomers := 2 } :
          StereoEnumerationOptions).unique = true
      ∧ (enumerate_stereoisomers inertCollaborators (bondsOnly 2)
          { plainOptions with unique := true, max_isomers := 2 }).finalState
        = some dedupRunState)
    ∧ (keptSignatures inertCollaborators dedupRunState.passes).Nodup :=
  ⟨⟨rfl, by decide⟩,
    (unique_keeps_new_signatures_only inertCollaborators (bondsOnly 2)
      { plainOptions with unique := true, max_isomers := 2 } dedupRunState rfl
      (by decide)).1⟩

/-- C19: for every combination index the loop processes, the copy built for it
carries an empty set of stereo groups, whether the graph had stereo groups or
not, and there is one such copy per index, in order; the caller's graph keeps
the stereo-group list it had when the loop started, which is the list it was
passed with as far as the clearing step goes. -/
theorem isomer_copies_carry_no_stereo_groups (ext : Collaborators) (mol : ROMol)
    (options : StereoEnumerationOptions) (st : LoopState)
    (h : (enumerate_stereoisomers ext mol options).finalState = some st) :
    (∀ c ∈ st.passes, c.copied.stereoGroups = [])
      ∧ st.passes.map Candidate.bitflag = (enumerate_stereoisomers ext mol options).indices
      ∧ st.mol.stereoGroups = (ext.findPotentialStereo (clearStale mol)).stereoGroups
      ∧ (clearStale mol).stereoGroups = mol.stereoGroups := by
  obtain ⟨hfold, hidx⟩ := finalState_eq ext mol options st h
  refine ⟨?_, ?_, ?_, rfl⟩
  · exact fold_copies_without_groups ext options _ _ _ _ st (fun c hc => by simp at hc) hfold
  · rw [hidx, fold_passes_bitflags ext options _ _ _ _ st hfold]
    rfl
  · exact (fold_mol_sameExceptStereo ext options _ _ _ _ st hfold).1

/-- C19, an instance: a graph with one stereo group and one bond marked "any",
`maxIsomers` = 1. -/
theorem isomer_copies_carry_no_stereo_groups_witness :
    (enumerate_stereoisomers inertCollaborators bondAndGroup
        { plainOptions with max_isomers := 1 }).finalState = some groupRunState
      ∧ (∀ c ∈ groupRunState.passes, c.copied.stereoGroups = [])
      ∧ groupRunState.mol.stereoGroups = bondAndGroup.stereoGroups :=
  ⟨by decide,
    (isomer_copies_carry_no_stereo_groups inertCollaborators bondAndGroup
      { plainOptions with max_isomers := 1 } groupRunState (by decide)).1,
    (isomer_copies_carry_no_stereo_groups inertCollaborators bondAndGroup
      { plainOptions with max_isomers := 1 } groupRunState (by decide)).2.2.1⟩

end RDKit
